import Mathlib

/-!
Verification development for the implicit-free-list memory allocator in
`mm.c` (boundary-tag encoding, next-fit search, splitting, four-case
coalescing, and the TA-session heap checker `mm_check`).

The heap is modelled as a word-granular store `mem : Nat → Nat` indexed by
byte address: the C code reads and writes 4-byte words (`GET`/`PUT` on
`unsigned int *`) only at 4-aligned addresses, so a single cell per address
is sound; values are kept below `2 ^ 32` by `PUT`.  Machine arithmetic on
`size_t` is modelled on `Nat` with explicit `% 2 ^ 64` where the C code can
wrap.  Fallible operations (`mem_sbrk` exhaustion, assertion failures in
`mm_check`) return `Option`.  The unbounded C `for`/`while` loops are given
explicit fuel (we use `s.brk`, an over-approximation of the block count);
running out of fuel yields `none` at the outer layer, and the invariant
proofs below show this never happens on well-formed heaps.
-/

namespace MM

/-- `WSIZE` from mm.c line 34: word and header/footer size (bytes). -/
def WSIZE : Nat := 4

/-- `DSIZE` from mm.c line 35: double word size (bytes). -/
def DSIZE : Nat := 8

/-- `ALIGNMENT` from mm.c line 26. -/
def ALIGNMENT : Nat := 8

/-- `CHUNKSIZE` from mm.c line 36: amount (bytes) by which the heap is grown. -/
def CHUNKSIZE : Nat := 4096

/-- `SIZE_T_SIZE` from mm.c line 31: `ALIGN(sizeof(size_t))` = 8 on LP64. -/
def SIZE_T_SIZE : Nat := 8

/-- Modulus of the 32-bit `unsigned int` header/footer words. -/
def W32 : Nat := 4294967296

/-- Modulus of 64-bit `size_t` arithmetic. -/
def W64 : Nat := 18446744073709551616

/-- The allocator state: the word store, the region bounds of the memory
system (`base` = `mem_heap_lo`, `brk` = first byte past the heap, `limit` =
maximal region size), and the C globals of mm.c: `heap_listp` (line 66),
`finder` (line 67), and the checker globals `firstHead`, `freeHead`,
`num_freeblocks` (lines 370-372, zero-initialised statics).  Null pointers
are address 0. -/
structure AState where
  mem : Nat → Nat
  base : Nat
  brk : Nat
  limit : Nat
  heap_listp : Nat
  finder : Nat
  firstHead : Nat
  freeHead : Nat
  num_freeblocks : Int

/-- `GET(p)` from mm.c line 41: read the 4-byte word at address `p`. -/
def GET (s : AState) (p : Nat) : Nat := s.mem p

/-- `PUT(p, val)` from mm.c line 42: write the 4-byte word at address `p`
(the store keeps the value reduced modulo `2 ^ 32`, as the cast to
`unsigned int` does). -/
def PUT (s : AState) (p val : Nat) : AState :=
  { s with mem := fun a => if a = p then val % W32 else s.mem a }

/-- `PACK(size, alloc)` from mm.c line 39. -/
def PACK (size alloc : Nat) : Nat := size ||| alloc

/-- `GET_SIZE(p)` from mm.c line 44: `GET(p) & ~0x7`; on `unsigned int`
the mask `~0x7` is `0xFFFFFFF8 = 4294967288`. -/
def GET_SIZE (s : AState) (p : Nat) : Nat := GET s p &&& 4294967288

/-- `GET_ALLOC(p)` from mm.c line 45. -/
def GET_ALLOC (s : AState) (p : Nat) : Nat := GET s p &&& 1

/-- `HDRP(bp)` from mm.c line 47. -/
def HDRP (bp : Nat) : Nat := bp - WSIZE

/-- `FTRP(bp)` from mm.c line 48 (reads the current header at `HDRP bp`). -/
def FTRP (s : AState) (bp : Nat) : Nat := bp + GET_SIZE s (HDRP bp) - DSIZE

/-- `NEXT_BLKP(bp)` from mm.c line 50. -/
def NEXT_BLKP (s : AState) (bp : Nat) : Nat := bp + GET_SIZE s (bp - WSIZE)

/-- `PREV_BLKP(bp)` from mm.c line 51. -/
def PREV_BLKP (s : AState) (bp : Nat) : Nat := bp - GET_SIZE s (bp - DSIZE)

/-- 64-bit `size_t` subtraction, used to model `csize - asize` in `place`. -/
def sub64 (a b : Nat) : Nat := (a + W64 - b) % W64

/-- Growing the region top by `k` bytes (the state effect of `mem_sbrk`). -/
def addBrk (s : AState) (k : Nat) : AState := { s with brk := s.brk + k }

/-- Updating only the `finder` cursor of a state. -/
def setFinder (s : AState) (f : Nat) : AState := { s with finder := f }

/-- The `heap_listp`/`finder` initialisation of `mm_init` lines 171-172. -/
def setHlpFinder (s : AState) (h f : Nat) : AState :=
  { s with heap_listp := h, finder := f }

/-- Modelled from the spec: the external region-growth primitive
(`grow(extra_bytes)` in spec section 6; `mem_sbrk` of the course memory
system, which is not part of `src/`).  It extends the region by `incr`
bytes and returns the old top, or fails when the request would exceed the
region's capacity; it never shrinks and touches no memory content. -/
def mem_sbrk (s : AState) (incr : Nat) : Option (Nat × AState) :=
  if s.brk + incr ≤ s.base + s.limit then
    some (s.brk, addBrk s incr)
  else
    none

/-- Modelled from the spec: `mem_heap_lo`, the first byte of the region. -/
def mem_heap_lo (s : AState) : Nat := s.base

/-- Modelled from the spec: `mem_heap_hi`, the last byte of the region. -/
def mem_heap_hi (s : AState) : Nat := s.brk - 1

/-- Rounding performed by `extend_heap` (mm.c line 265): an odd word count
is rounded up to an even one, then converted to bytes. -/
def sbrkRound (words : Nat) : Nat :=
  if words % 2 = 1 then (words + 1) * WSIZE else words * WSIZE

/-- `coalesce` from mm.c lines 296-333: four-case boundary-tag coalescing,
returning the (possibly moved) block pointer.  Case 1 returns early and
skips the `finder` fix-up at lines 329-331, exactly as the C does. -/
def coalesce (s : AState) (bp : Nat) : Nat × AState :=
  let prev_alloc := GET_ALLOC s (FTRP s (PREV_BLKP s bp))
  let next_alloc := GET_ALLOC s (HDRP (NEXT_BLKP s bp))
  let size := GET_SIZE s (HDRP bp)
  if prev_alloc ≠ 0 ∧ next_alloc ≠ 0 then
    (bp, s)
  else
    let (bp2, s2) :=
      if prev_alloc ≠ 0 ∧ next_alloc = 0 then
        let size2 := size + GET_SIZE s (HDRP (NEXT_BLKP s bp))
        let t1 := PUT s (HDRP bp) (PACK size2 0)
        let t2 := PUT t1 (FTRP t1 bp) (PACK size2 0)
        (bp, t2)
      else if prev_alloc = 0 ∧ next_alloc ≠ 0 then
        let size2 := size + GET_SIZE s (HDRP (PREV_BLKP s bp))
        let t1 := PUT s (FTRP s bp) (PACK size2 0)
        let t2 := PUT t1 (HDRP (PREV_BLKP t1 bp)) (PACK size2 0)
        (PREV_BLKP t2 bp, t2)
      else
        let size2 := size + GET_SIZE s (HDRP (PREV_BLKP s bp)) +
          GET_SIZE s (FTRP s (NEXT_BLKP s bp))
        let t1 := PUT s (HDRP (PREV_BLKP s bp)) (PACK size2 0)
        let t2 := PUT t1 (FTRP t1 (NEXT_BLKP t1 bp)) (PACK size2 0)
        (PREV_BLKP t2 bp, t2)
    let s3 :=
      if s2.finder < NEXT_BLKP s2 bp2 ∧ bp2 < s2.finder then
        { s2 with finder := bp2 }
      else s2
    (bp2, s3)

/-- `extend_heap` from mm.c lines 261-275. -/
def extend_heap (s : AState) (words : Nat) : Option (Nat × AState) :=
  let size := sbrkRound words
  match mem_sbrk s size with
  | none => none
  | some (bp, s1) =>
    let s2 := PUT s1 (HDRP bp) (PACK size 0)
    let s3 := PUT s2 (FTRP s2 bp) (PACK size 0)
    let s4 := PUT s3 (HDRP (NEXT_BLKP s3 bp)) (PACK 0 1)
    some (coalesce s4 bp)

/-- `mm_init` from mm.c lines 161-178: padding word, prologue
header/footer, epilogue header, then one `CHUNKSIZE` extension.
`none` models the `-1` failure return. -/
def mm_init (s : AState) : Option AState :=
  match mem_sbrk s (4 * WSIZE) with
  | none => none
  | some (hp, s1) =>
    let s2 := PUT s1 hp 0
    let s3 := PUT s2 (hp + 1 * WSIZE) (PACK DSIZE 1)
    let s4 := PUT s3 (hp + 2 * WSIZE) (PACK DSIZE 1)
    let s5 := PUT s4 (hp + 3 * WSIZE) (PACK 0 1)
    let s6 := setHlpFinder s5 (hp + 2 * WSIZE) (hp + 2 * WSIZE)
    match extend_heap s6 (CHUNKSIZE / WSIZE) with
    | none => none
    | some (_, s7) => some s7

/-- The first `for` loop of `find_fit` (mm.c lines 225-229), scanning from
the `finder` cursor.  Returns the final cursor value and the found block,
with explicit fuel (first component `none` at fuel exhaustion, which the
invariant proofs rule out on well-formed heaps). -/
def fitLoop (s : AState) (asize : Nat) : Nat → Nat → Option (Nat × Option Nat)
  | 0, _ => none
  | fuel + 1, f =>
    if GET_SIZE s (HDRP f) ≠ 0 then
      if GET_ALLOC s (HDRP f) = 0 ∧ asize ≤ GET_SIZE s (HDRP f) then
        some (f, some f)
      else
        fitLoop s asize fuel (NEXT_BLKP s f)
    else
      some (f, none)

/-- The second `for` loop of `find_fit` (mm.c lines 231-235), scanning from
`heap_listp` up to the old cursor `temp`. -/
def fitLoop2 (s : AState) (asize temp : Nat) : Nat → Nat → Option (Option Nat)
  | 0, _ => none
  | fuel + 1, bp =>
    if bp < temp then
      if GET_ALLOC s (HDRP bp) = 0 ∧ asize ≤ GET_SIZE s (HDRP bp) then
        some (some bp)
      else
        fitLoop2 s asize temp fuel (NEXT_BLKP s bp)
    else
      some none

/-- `find_fit` from mm.c lines 220-237: next-fit search.  The first loop
mutates the global `finder`; the returned state carries its final value. -/
def find_fit (s : AState) (asize : Nat) : Option (Option Nat × AState) :=
  let temp := s.finder
  match fitLoop s asize s.brk s.finder with
  | none => none
  | some (f1, some bp) => some (some bp, setFinder s f1)
  | some (f1, none) =>
    let s1 := setFinder s f1
    match fitLoop2 s1 asize temp s1.brk s1.heap_listp with
    | none => none
    | some r2 => some (r2, s1)

/-- `place` from mm.c lines 243-255: split when the remainder would be at
least the minimum block size (`2 * DSIZE`), else allocate the whole block.
`csize - asize` is `size_t` subtraction, hence `sub64`. -/
def place (s : AState) (bp asize : Nat) : AState :=
  let csize := GET_SIZE s (HDRP bp)
  if 2 * DSIZE ≤ sub64 csize asize then
    let t1 := PUT s (HDRP bp) (PACK asize 1)
    let t2 := PUT t1 (FTRP t1 bp) (PACK asize 1)
    let bp2 := NEXT_BLKP t2 bp
    let t3 := PUT t2 (HDRP bp2) (PACK (sub64 csize asize) 0)
    let t4 := PUT t3 (FTRP t3 bp2) (PACK (sub64 csize asize) 0)
    t4
  else
    let t1 := PUT s (HDRP bp) (PACK csize 1)
    let t2 := PUT t1 (FTRP t1 bp) (PACK csize 1)
    t2

/-- The adjusted block size computed by `mm_malloc` (mm.c lines 194-198).
`size + DSIZE + (DSIZE - 1)` is `size_t` arithmetic and can wrap, hence
the explicit `% W64`. -/
def asizeOf (size : Nat) : Nat :=
  if size ≤ DSIZE then 2 * DSIZE
  else DSIZE * (((size + DSIZE + (DSIZE - 1)) % W64) / DSIZE)

/-- The number of bytes `mm_malloc` asks `mem_sbrk` for when no fit is
found: `extend_heap(MAX(asize, CHUNKSIZE) / WSIZE)` after its rounding. -/
def extendAmt (size : Nat) : Nat := sbrkRound (max (asizeOf size) CHUNKSIZE / WSIZE)

/-- `mm_malloc` from mm.c lines 185-211.  The result is `some (r, s')`
where `r` is the returned pointer (`none` = `NULL`); the outer `none` is
fuel exhaustion of the search loops (never happens on well-formed heaps). -/
def mm_malloc (s : AState) (size : Nat) : Option (Option Nat × AState) :=
  if size = 0 then some (none, s)
  else
    let asize := asizeOf size
    match find_fit s asize with
    | none => none
    | some (some bp, s1) => some (some bp, place s1 bp asize)
    | some (none, s1) =>
      let extendsize := max asize CHUNKSIZE
      match extend_heap s1 (extendsize / WSIZE) with
      | none => some (none, s1)
      | some (bp, s2) => some (some bp, place s2 bp asize)

/-- `mm_free` from mm.c lines 283-289: clear the allocated bit in header
and footer, then coalesce. -/
def mm_free (s : AState) (ptr : Nat) : AState :=
  let size := GET_SIZE s (HDRP ptr)
  let t1 := PUT s (HDRP ptr) (PACK size 0)
  let t2 := PUT t1 (FTRP t1 ptr) (PACK size 0)
  (coalesce t2 ptr).2

/-- The 8-byte little-endian `size_t` load used by `mm_realloc` and by the
`size_t`-typed accessors of the checker: two consecutive 4-byte words. -/
def read64 (s : AState) (p : Nat) : Nat := GET s p + W32 * GET s (p + 4)

/-- The copy length computed by `mm_realloc` (mm.c lines 357-360):
`copy = *(size_t *)((char *)old - SIZE_T_SIZE); if (size < copy) copy = size;`.
Note that this reads the 8 bytes right before the payload — the previous
block's footer word and this block's header word — not a stored payload
size. -/
def reallocCopy (s : AState) (old size : Nat) : Nat :=
  let copy := read64 s (old - SIZE_T_SIZE)
  if size < copy then size else copy

/-- The C library `memcpy(dst, src, len)` over the word-granular store:
every address in `[dst, dst + len)` receives the content found at the
corresponding source offset, all other addresses are untouched.  The
metadata/framing reasoning below depends only on the write range
`[dst, dst + len)` and the read range `[src, src + len)`. -/
def memcpy (s : AState) (dst src len : Nat) : AState :=
  { s with mem := fun a => if dst ≤ a ∧ a < dst + len then s.mem (src + (a - dst)) else s.mem a }

/-- `mm_realloc` from mm.c lines 340-367.  Faithful to the source: the
`newp == NULL` early return comes before the `size == 0` branch, and the
copy length is `reallocCopy`. -/
def mm_realloc (s : AState) (ptr size : Nat) : Option (Option Nat × AState) :=
  let old := ptr
  match mm_malloc s size with
  | none => none
  | some (none, s1) => some (none, s1)
  | some (some newp, s1) =>
    if size = 0 then
      some (none, mm_free s1 ptr)
    else
      let copy := reallocCopy s1 old size
      let s2 := memcpy s1 newp old copy
      let s3 := mm_free s2 old
      some (some newp, s3)

/-- `get_alloc` from mm.c lines 114-117: `size_t`-typed accessor used by
`mm_check`; `assert(h)` becomes failure on the null pointer. -/
def get_alloc (s : AState) (h : Nat) : Option Nat :=
  if h = 0 then none else some (read64 s h &&& 1)

/-- `get_size` from mm.c lines 109-112 (`~0x7` on `size_t`). -/
def get_size (s : AState) (h : Nat) : Option Nat :=
  if h = 0 then none else some (read64 s h &&& 18446744073709551608)

/-- `get_size_footer` from mm.c lines 98-101. -/
def get_size_footer (s : AState) (f : Nat) : Option Nat :=
  if f = 0 then none else some (read64 s f &&& 18446744073709551608)

/-- `get_footer` from mm.c lines 119-122 (`sizeof(footer_t)` = 8). -/
def get_footer (s : AState) (h : Nat) : Option Nat :=
  if h = 0 then none
  else do
    let sz ← get_size s h
    some (h + sz - 8)

/-- `get_below_header` from mm.c lines 134-138. -/
def get_below_header (s : AState) (h : Nat) : Option Nat :=
  if h = 0 then none
  else do
    let psz ← get_size_footer s (h - 8)
    some (h - psz)

/-- `get_above_header` from mm.c lines 129-132. -/
def get_above_header (s : AState) (h : Nat) : Option Nat :=
  if h = 0 then none
  else do
    let sz ← get_size s h
    some (h + sz)

/-- `get_payload` from mm.c lines 140-143 (`sizeof(header_t)` = 8). -/
def get_payload (h : Nat) : Option Nat :=
  if h = 0 then none else some (h + 8)

/-- `get_freeblock_header` from mm.c lines 150-153. -/
def get_freeblock_header (fb : Nat) : Option Nat :=
  if fb = 0 then none else some (fb - 8)

/-- Dereference of a `freeblock_t` field (`->next` at offset 0, `->prev`
at offset 8): fails on a null base pointer, as the C crash would. -/
def derefField (s : AState) (p off : Nat) : Option Nat :=
  if p = 0 then none else some (read64 s (p + off))

/-- The block-level `while` loop of `mm_check` (mm.c lines 385-401),
transcribed with its bug intact: the condition is `get_size(h > 0)`, which
applies `get_size` to the pointer `(header_t *) 1` for any nonnull `h`.
Carries `(h, prev_alloc)` with `prev_alloc` a 0/1 value. -/
def checkBlockLoop (s : AState) : Nat → Nat → Nat → Option (Nat × Nat)
  | 0, _, _ => none
  | fuel + 1, h, prev_alloc => do
    let cond ← get_size s (if 0 < h then 1 else 0)
    if cond ≠ 0 then do
      let f ← get_footer s h
      let size ← get_size s h
      let fsz ← get_size_footer s f
      guard (fsz = size)
      guard (f + 8 - size = h)
      let al ← get_alloc s h
      guard (prev_alloc ≠ 0 ∧ al ≠ 0)
      guard (size % ALIGNMENT = 0)
      let pl ← get_payload h
      guard (pl % ALIGNMENT = 0)
      guard (mem_heap_lo s < h ∧ h < mem_heap_hi s)
      checkBlockLoop s fuel (h + size) al
    else
      some (h, prev_alloc)

/-- The free-list `while` loop of `mm_check` (mm.c lines 409-420),
transcribed with its bugs intact (`prev`/`next` are never advanced). -/
def checkFreeLoop (s : AState) : Nat → Nat → Nat → Nat → Nat → Option Nat
  | 0, _, _, _, _ => none
  | fuel + 1, fb, prev, next, count =>
    if fb = 0 then some count
    else do
      let h ← get_freeblock_header fb
      let al ← get_alloc s h
      guard (al = 0)
      if prev ≠ 0 then do
        let pn ← derefField s prev 0
        guard (pn = fb)
      if next ≠ 0 then do
        let np ← derefField s next 8
        guard (np = fb)
      guard (mem_heap_lo s < fb ∧ fb < mem_heap_hi s)
      checkFreeLoop s fuel next prev next (count + 1)

/-- The backwards-cycle `while` loop of `mm_check` (mm.c lines 422-425). -/
def checkBackLoop (s : AState) : Nat → Nat → Option Unit
  | 0, _ => none
  | fuel + 1, fb =>
    if fb = 0 then some ()
    else do
      let p ← derefField s fb 8
      checkBackLoop s fuel p

/-- `mm_check` from mm.c lines 378-429.  `none` models an assertion
failure (process abort); `some ()` a run in which no assertion fires.
Its very first statement, `bool prev_alloc = !get_alloc(h)` with
`h = firstHead`, already calls `get_alloc` on the never-initialised global
`firstHead`. -/
def mm_check (s : AState) : Option Unit := do
  let h := s.firstHead
  let a0 ← get_alloc s h
  let prev_alloc : Nat := if a0 = 0 then 1 else 0
  let bh ← get_below_header s h
  guard (bh = mem_heap_lo s)
  let hp ← checkBlockLoop s s.brk h prev_alloc
  let ah ← get_above_header s hp.1
  guard (ah = mem_heap_hi s - 7)
  let prev ← derefField s s.freeHead 8
  let next ← derefField s s.freeHead 0
  let count ← checkFreeLoop s s.brk s.freeHead prev next 0
  checkBackLoop s s.brk prev
  guard ((count : Int) = s.num_freeblocks)
  pure ()

/-- The state before `mm_init`: an untouched region of capacity `limit`
starting at `base` with arbitrary content `m0`; all C globals are
zero-initialised statics. -/
def initState (m0 : Nat → Nat) (base limit : Nat) : AState :=
  { mem := m0, base := base, brk := base, limit := limit,
    heap_listp := 0, finder := 0, firstHead := 0, freeHead := 0,
    num_freeblocks := 0 }

end MM

namespace MM

/-! ### Bit-level arithmetic lemmas for the packed header/footer words -/

theorem lor_one_of_even (a : Nat) (ha : a % 2 = 0) : a ||| 1 = a + 1 := by
  apply Nat.eq_of_testBit_eq
  intro i
  rw [Nat.testBit_lor]
  cases i with
  | zero =>
    rw [Nat.testBit_zero, Nat.testBit_zero, Nat.testBit_zero]
    simp
    omega
  | succ j =>
    rw [Nat.testBit_succ, Nat.testBit_succ, Nat.testBit_succ]
    have h2 : (1 : Nat) / 2 = 0 := by norm_num
    have h3 : (a + 1) / 2 = a / 2 := by omega
    rw [h2, h3]
    simp [Nat.zero_testBit]

theorem mask8_eq (v : Nat) (hv : v < W32) : v &&& 4294967288 = 8 * (v / 8) := by
  have hvv : v < 4294967296 := hv
  have hM : (4294967288 : Nat) = (2 ^ 29 - 1) <<< 3 := by
    rw [Nat.shiftLeft_eq]
    norm_num
  have h8 : 8 * (v / 8) = (v >>> 3) <<< 3 := by
    rw [Nat.shiftRight_eq_div_pow, Nat.shiftLeft_eq]
    norm_num
    ring
  apply Nat.eq_of_testBit_eq
  intro i
  rw [Nat.testBit_land, hM, h8, Nat.testBit_shiftLeft, Nat.testBit_shiftLeft,
    Nat.testBit_two_pow_sub_one]
  by_cases h3 : 3 ≤ i
  · rw [Nat.testBit_shiftRight]
    have hi : 3 + (i - 3) = i := by omega
    rw [hi]
    by_cases h32 : i < 32
    · have h29 : i - 3 < 29 := by omega
      simp [h3, h29]
    · have hv' : v < 2 ^ i :=
        lt_of_lt_of_le hvv (by
          calc (4294967296 : Nat) = 2 ^ 32 := by norm_num
          _ ≤ 2 ^ i := Nat.pow_le_pow_right (by norm_num) (by omega))
      rw [Nat.testBit_lt_two_pow hv']
      have h29 : ¬ (i - 3 < 29) := by omega
      simp [h29]
  · simp [h3]

theorem and_one_eq (v : Nat) : v &&& 1 = v % 2 := Nat.and_one_is_mod v

theorem PACK_eq_add (sz al : Nat) (h8 : sz % 8 = 0) (hal : al ≤ 1) :
    PACK sz al = sz + al := by
  unfold PACK
  rcases Nat.le_one_iff_eq_zero_or_eq_one.mp hal with h | h
  · subst h
    simp
  · subst h
    exact lor_one_of_even sz (by omega)

theorem PACK_lt (sz al : Nat) (h8 : sz % 8 = 0) (hal : al ≤ 1) (hsz : sz < W32) :
    PACK sz al < W32 := by
  rw [PACK_eq_add sz al h8 hal]
  have : sz + 8 ≤ W32 := by
    unfold W32 at hsz ⊢
    omega
  omega

theorem PACK_mod (sz al : Nat) (h8 : sz % 8 = 0) (hal : al ≤ 1) (hsz : sz < W32) :
    PACK sz al % W32 = PACK sz al :=
  Nat.mod_eq_of_lt (PACK_lt sz al h8 hal hsz)

theorem word_size_eq (w sz al : Nat) (hw : w = PACK sz al) (h8 : sz % 8 = 0)
    (hal : al ≤ 1) (hsz : sz < W32) : w &&& 4294967288 = sz := by
  have hlt : w < W32 := hw ▸ PACK_lt sz al h8 hal hsz
  rw [mask8_eq w hlt, hw, PACK_eq_add sz al h8 hal]
  omega

theorem word_alloc_eq (w sz al : Nat) (hw : w = PACK sz al) (h8 : sz % 8 = 0)
    (hal : al ≤ 1) : w &&& 1 = al := by
  rw [and_one_eq, hw, PACK_eq_add sz al h8 hal]
  omega

theorem sub64_sub (a b : Nat) (hba : b ≤ a) (ha : a < W64) : sub64 a b = a - b := by
  unfold sub64 W64 at *
  omega

/-! ### Store lemmas -/

@[simp] theorem GET_PUT (s : AState) (p v : Nat) : GET (PUT s p v) p = v % W32 := by
  simp [GET, PUT]

theorem GET_PUT_ne (s : AState) (p q v : Nat) (h : q ≠ p) :
    GET (PUT s p v) q = GET s q := by
  simp [GET, PUT, h]

@[simp] theorem PUT_base (s : AState) (p v : Nat) : (PUT s p v).base = s.base := rfl
@[simp] theorem PUT_brk (s : AState) (p v : Nat) : (PUT s p v).brk = s.brk := rfl
@[simp] theorem PUT_limit (s : AState) (p v : Nat) : (PUT s p v).limit = s.limit := rfl
@[simp] theorem PUT_hlp (s : AState) (p v : Nat) : (PUT s p v).heap_listp = s.heap_listp := rfl
@[simp] theorem PUT_finder (s : AState) (p v : Nat) : (PUT s p v).finder = s.finder := rfl
@[simp] theorem PUT_firstHead (s : AState) (p v : Nat) : (PUT s p v).firstHead = s.firstHead := rfl
@[simp] theorem PUT_freeHead (s : AState) (p v : Nat) : (PUT s p v).freeHead = s.freeHead := rfl
@[simp] theorem PUT_nfb (s : AState) (p v : Nat) : (PUT s p v).num_freeblocks = s.num_freeblocks := rfl

@[simp] theorem memcpy_base (s : AState) (d q l : Nat) : (memcpy s d q l).base = s.base := rfl
@[simp] theorem memcpy_brk (s : AState) (d q l : Nat) : (memcpy s d q l).brk = s.brk := rfl
@[simp] theorem memcpy_limit (s : AState) (d q l : Nat) : (memcpy s d q l).limit = s.limit := rfl
@[simp] theorem memcpy_hlp (s : AState) (d q l : Nat) : (memcpy s d q l).heap_listp = s.heap_listp := rfl
@[simp] theorem memcpy_finder (s : AState) (d q l : Nat) : (memcpy s d q l).finder = s.finder := rfl
@[simp] theorem memcpy_firstHead (s : AState) (d q l : Nat) : (memcpy s d q l).firstHead = s.firstHead := rfl
@[simp] theorem memcpy_freeHead (s : AState) (d q l : Nat) : (memcpy s d q l).freeHead = s.freeHead := rfl
@[simp] theorem memcpy_nfb (s : AState) (d q l : Nat) : (memcpy s d q l).num_freeblocks = s.num_freeblocks := rfl

theorem GET_memcpy_out (s : AState) (d q l a : Nat) (h : a < d ∨ d + l ≤ a) :
    GET (memcpy s d q l) a = GET s a := by
  unfold GET memcpy
  simp only
  rw [if_neg]
  omega

/-- Reading a word written by `PUT` with a well-formed packed value. -/
theorem GET_PUT_pack (s : AState) (p sz al : Nat) (h8 : sz % 8 = 0) (hal : al ≤ 1)
    (hsz : sz < W32) : GET (PUT s p (PACK sz al)) p = PACK sz al := by
  rw [GET_PUT, PACK_mod sz al h8 hal hsz]

theorem GET_SIZE_of_word (s : AState) (p sz al : Nat) (hw : GET s p = PACK sz al)
    (h8 : sz % 8 = 0) (hal : al ≤ 1) (hsz : sz < W32) : GET_SIZE s p = sz := by
  unfold GET_SIZE
  exact word_size_eq _ sz al hw h8 hal hsz

theorem GET_ALLOC_of_word (s : AState) (p sz al : Nat) (hw : GET s p = PACK sz al)
    (h8 : sz % 8 = 0) (hal : al ≤ 1) : GET_ALLOC s p = al := by
  unfold GET_ALLOC
  exact word_alloc_eq _ sz al hw h8 hal

end MM

namespace MM

/-! ### Derived store access lemmas -/

theorem GET_SIZE_PUT_ne (s : AState) (p q v : Nat) (h : q ≠ p) :
    GET_SIZE (PUT s p v) q = GET_SIZE s q := by
  unfold GET_SIZE
  rw [GET_PUT_ne s p q v h]

theorem GET_ALLOC_PUT_ne (s : AState) (p q v : Nat) (h : q ≠ p) :
    GET_ALLOC (PUT s p v) q = GET_ALLOC s q := by
  unfold GET_ALLOC
  rw [GET_PUT_ne s p q v h]

theorem GET_SIZE_PUT_pack (s : AState) (p sz al : Nat) (h8 : sz % 8 = 0) (hal : al ≤ 1)
    (hsz : sz < W32) : GET_SIZE (PUT s p (PACK sz al)) p = sz :=
  GET_SIZE_of_word _ _ sz al (GET_PUT_pack s p sz al h8 hal hsz) h8 hal hsz

theorem GET_ALLOC_PUT_pack (s : AState) (p sz al : Nat) (h8 : sz % 8 = 0) (hal : al ≤ 1)
    (hsz : sz < W32) : GET_ALLOC (PUT s p (PACK sz al)) p = al :=
  GET_ALLOC_of_word _ _ sz al (GET_PUT_pack s p sz al h8 hal hsz) h8 hal

@[simp] theorem setFinder_mem (s : AState) (f : Nat) : (setFinder s f).mem = s.mem := rfl
@[simp] theorem setFinder_finder (s : AState) (f : Nat) : (setFinder s f).finder = f := rfl
@[simp] theorem setFinder_base (s : AState) (f : Nat) : (setFinder s f).base = s.base := rfl
@[simp] theorem setFinder_brk (s : AState) (f : Nat) : (setFinder s f).brk = s.brk := rfl
@[simp] theorem setFinder_limit (s : AState) (f : Nat) : (setFinder s f).limit = s.limit := rfl
@[simp] theorem setFinder_hlp (s : AState) (f : Nat) : (setFinder s f).heap_listp = s.heap_listp := rfl
@[simp] theorem setFinder_firstHead (s : AState) (f : Nat) : (setFinder s f).firstHead = s.firstHead := rfl
@[simp] theorem setFinder_freeHead (s : AState) (f : Nat) : (setFinder s f).freeHead = s.freeHead := rfl
@[simp] theorem setFinder_nfb (s : AState) (f : Nat) : (setFinder s f).num_freeblocks = s.num_freeblocks := rfl

theorem setFinder_self (s : AState) : setFinder s s.finder = s := rfl

@[simp] theorem GET_setFinder (s : AState) (f a : Nat) : GET (setFinder s f) a = GET s a := rfl

@[simp] theorem addBrk_mem (s : AState) (k : Nat) : (addBrk s k).mem = s.mem := rfl
@[simp] theorem addBrk_brk (s : AState) (k : Nat) : (addBrk s k).brk = s.brk + k := rfl
@[simp] theorem addBrk_base (s : AState) (k : Nat) : (addBrk s k).base = s.base := rfl
@[simp] theorem addBrk_limit (s : AState) (k : Nat) : (addBrk s k).limit = s.limit := rfl
@[simp] theorem addBrk_hlp (s : AState) (k : Nat) : (addBrk s k).heap_listp = s.heap_listp := rfl
@[simp] theorem addBrk_finder (s : AState) (k : Nat) : (addBrk s k).finder = s.finder := rfl
@[simp] theorem addBrk_firstHead (s : AState) (k : Nat) : (addBrk s k).firstHead = s.firstHead := rfl
@[simp] theorem addBrk_freeHead (s : AState) (k : Nat) : (addBrk s k).freeHead = s.freeHead := rfl
@[simp] theorem addBrk_nfb (s : AState) (k : Nat) : (addBrk s k).num_freeblocks = s.num_freeblocks := rfl
@[simp] theorem GET_addBrk (s : AState) (k a : Nat) : GET (addBrk s k) a = GET s a := rfl

@[simp] theorem setHlpFinder_mem (s : AState) (h f : Nat) : (setHlpFinder s h f).mem = s.mem := rfl
@[simp] theorem setHlpFinder_brk (s : AState) (h f : Nat) : (setHlpFinder s h f).brk = s.brk := rfl
@[simp] theorem setHlpFinder_base (s : AState) (h f : Nat) : (setHlpFinder s h f).base = s.base := rfl
@[simp] theorem setHlpFinder_limit (s : AState) (h f : Nat) : (setHlpFinder s h f).limit = s.limit := rfl
@[simp] theorem setHlpFinder_hlp (s : AState) (h f : Nat) : (setHlpFinder s h f).heap_listp = h := rfl
@[simp] theorem setHlpFinder_finder (s : AState) (h f : Nat) : (setHlpFinder s h f).finder = f := rfl
@[simp] theorem setHlpFinder_firstHead (s : AState) (h f : Nat) : (setHlpFinder s h f).firstHead = s.firstHead := rfl
@[simp] theorem setHlpFinder_freeHead (s : AState) (h f : Nat) : (setHlpFinder s h f).freeHead = s.freeHead := rfl
@[simp] theorem setHlpFinder_nfb (s : AState) (h f : Nat) : (setHlpFinder s h f).num_freeblocks = s.num_freeblocks := rfl
@[simp] theorem GET_setHlpFinder (s : AState) (h f a : Nat) : GET (setHlpFinder s h f) a = GET s a := rfl

@[simp] theorem initState_mem (m0 : Nat → Nat) (b l : Nat) : (initState m0 b l).mem = m0 := rfl
@[simp] theorem initState_base (m0 : Nat → Nat) (b l : Nat) : (initState m0 b l).base = b := rfl
@[simp] theorem initState_brk (m0 : Nat → Nat) (b l : Nat) : (initState m0 b l).brk = b := rfl
@[simp] theorem initState_limit (m0 : Nat → Nat) (b l : Nat) : (initState m0 b l).limit = l := rfl
@[simp] theorem initState_hlp (m0 : Nat → Nat) (b l : Nat) : (initState m0 b l).heap_listp = 0 := rfl
@[simp] theorem initState_finder (m0 : Nat → Nat) (b l : Nat) : (initState m0 b l).finder = 0 := rfl
@[simp] theorem initState_firstHead (m0 : Nat → Nat) (b l : Nat) : (initState m0 b l).firstHead = 0 := rfl
@[simp] theorem initState_freeHead (m0 : Nat → Nat) (b l : Nat) : (initState m0 b l).freeHead = 0 := rfl
@[simp] theorem initState_nfb (m0 : Nat → Nat) (b l : Nat) : (initState m0 b l).num_freeblocks = 0 := rfl
@[simp] theorem GET_initState (m0 : Nat → Nat) (b l a : Nat) : GET (initState m0 b l) a = m0 a := rfl

theorem mem_sbrk_eq_some (s : AState) (incr : Nat) (h : s.brk + incr ≤ s.base + s.limit) :
    mem_sbrk s incr = some (s.brk, addBrk s incr) := by
  unfold mem_sbrk
  rw [if_pos h]

theorem mem_sbrk_eq_none (s : AState) (incr : Nat) (h : ¬ s.brk + incr ≤ s.base + s.limit) :
    mem_sbrk s incr = none := by
  unfold mem_sbrk
  rw [if_neg h]

/-! ### Local specification of `place` -/

/-- Normal form of `place s bp asize` on a block whose header reads size
`csize`, free, with `asize ≤ csize`: either the split writes (allocated
header/footer of size `asize` followed by a free header/footer of size
`csize - asize`) or the whole-block writes. -/
theorem place_spec (s : AState) (bp asize csize : Nat)
    (hbp : 8 ≤ bp)
    (hhdr : GET s (bp - 4) = PACK csize 0)
    (hc8 : csize % 8 = 0) (hcW : csize < W32)
    (ha8 : asize % 8 = 0) (ha16 : 16 ≤ asize)
    (hle : asize ≤ csize) :
    (16 ≤ csize - asize →
      place s bp asize =
        PUT (PUT (PUT (PUT s (bp - 4) (PACK asize 1)) (bp + asize - 8) (PACK asize 1))
          (bp + asize - 4) (PACK (csize - asize) 0)) (bp + csize - 8)
          (PACK (csize - asize) 0)) ∧
    (csize - asize < 16 →
      place s bp asize =
        PUT (PUT s (bp - 4) (PACK csize 1)) (bp + csize - 8) (PACK csize 1)) := by
  have haW : asize < W32 := lt_of_le_of_lt hle hcW
  have hc64 : csize < W64 := lt_trans hcW (by unfold W32 W64; norm_num)
  have hsub : sub64 csize asize = csize - asize := sub64_sub csize asize hle hc64
  have hcs : GET_SIZE s (bp - 4) = csize :=
    GET_SIZE_of_word s _ csize 0 hhdr hc8 (by omega) hcW
  constructor
  · intro hrem
    simp only [place, HDRP, FTRP, NEXT_BLKP, WSIZE, DSIZE]
    rw [hcs, hsub, if_pos (by omega : 2 * 8 ≤ csize - asize)]
    have h1 : GET_SIZE (PUT s (bp - 4) (PACK asize 1)) (bp - 4) = asize :=
      GET_SIZE_PUT_pack s (bp - 4) asize 1 ha8 (by omega) haW
    rw [h1]
    have h2 : GET_SIZE (PUT (PUT s (bp - 4) (PACK asize 1)) (bp + asize - 8)
        (PACK asize 1)) (bp - 4) = asize := by
      rw [GET_SIZE_PUT_ne _ _ _ _ (by omega), h1]
    rw [h2]
    have h3 : GET_SIZE (PUT (PUT (PUT s (bp - 4) (PACK asize 1)) (bp + asize - 8)
        (PACK asize 1)) (bp + asize - 4) (PACK (csize - asize) 0)) (bp + asize - 4) =
        csize - asize :=
      GET_SIZE_PUT_pack _ _ _ 0 (by omega) (by omega) (by omega)
    rw [h3]
    have h4 : bp + asize + (csize - asize) - 8 = bp + csize - 8 := by omega
    rw [h4]
  · intro hrem
    simp only [place, HDRP, FTRP, NEXT_BLKP, WSIZE, DSIZE]
    rw [hcs, hsub, if_neg (by omega : ¬ 2 * 8 ≤ csize - asize)]
    have h1 : GET_SIZE (PUT s (bp - 4) (PACK csize 1)) (bp - 4) = csize :=
      GET_SIZE_PUT_pack s (bp - 4) csize 1 hc8 (by omega) hcW
    rw [h1]

end MM

namespace MM

/-! ### Local specification of `coalesce`

Each lemma describes one of the four boundary-tag cases of mm.c lines
296-333, on a state in which the block at `bp` is free in its header, the
previous block's footer sits at `bp - 8` / header at `bp - psz - 4`, and
the next block's header at `bp + sz - 4`. -/

theorem coalesce_case1 (s : AState) (bp sz psz nsz : Nat)
    (hbp : psz + 8 ≤ bp)
    (hhdr : GET s (bp - 4) = PACK sz 0)
    (hpf : GET s (bp - 8) = PACK psz 1)
    (hph : GET s (bp - psz - 4) = PACK psz 1)
    (hnh : GET s (bp + sz - 4) = PACK nsz 1)
    (hs8 : sz % 8 = 0) (hp8 : psz % 8 = 0) (hn8 : nsz % 8 = 0)
    (hsW : sz < W32) (hpW : psz < W32) :
    coalesce s bp = (bp, s) := by
  have hA : GET_SIZE s (bp - 8) = psz := GET_SIZE_of_word s _ psz 1 hpf hp8 (by omega) hpW
  have hB : GET_SIZE s (bp - psz - 4) = psz := GET_SIZE_of_word s _ psz 1 hph hp8 (by omega) hpW
  have hC : GET_ALLOC s (bp - 8) = 1 := GET_ALLOC_of_word s _ psz 1 hpf hp8 (by omega)
  have hD : GET_SIZE s (bp - 4) = sz := GET_SIZE_of_word s _ sz 0 hhdr hs8 (by omega) hsW
  have hE : GET_ALLOC s (bp + sz - 4) = 1 := GET_ALLOC_of_word s _ nsz 1 hnh hn8 (by omega)
  simp only [coalesce, HDRP, FTRP, NEXT_BLKP, PREV_BLKP, WSIZE, DSIZE]
  rw [hA, hB, (by omega : bp - psz + psz - 8 = bp - 8), hC, hD, hE]
  rw [if_pos (by norm_num)]

theorem coalesce_case2 (s : AState) (bp sz psz nsz : Nat)
    (hbp : psz + 8 ≤ bp)
    (hhdr : GET s (bp - 4) = PACK sz 0)
    (hpf : GET s (bp - 8) = PACK psz 1)
    (hph : GET s (bp - psz - 4) = PACK psz 1)
    (hnh : GET s (bp + sz - 4) = PACK nsz 0)
    (hs8 : sz % 8 = 0) (hp8 : psz % 8 = 0) (hn8 : nsz % 8 = 0)
    (hs16 : 16 ≤ sz) (hn16 : 16 ≤ nsz)
    (hsnW : sz + nsz < W32) (hpW : psz < W32) :
    coalesce s bp =
      (bp, setFinder
        (PUT (PUT s (bp - 4) (PACK (sz + nsz) 0)) (bp + sz + nsz - 8) (PACK (sz + nsz) 0))
        (if s.finder < bp + sz + nsz ∧ bp < s.finder then bp else s.finder)) := by
  have hsW : sz < W32 := by omega
  have hA : GET_SIZE s (bp - 8) = psz := GET_SIZE_of_word s _ psz 1 hpf hp8 (by omega) hpW
  have hB : GET_SIZE s (bp - psz - 4) = psz := GET_SIZE_of_word s _ psz 1 hph hp8 (by omega) hpW
  have hC : GET_ALLOC s (bp - 8) = 1 := GET_ALLOC_of_word s _ psz 1 hpf hp8 (by omega)
  have hD : GET_SIZE s (bp - 4) = sz := GET_SIZE_of_word s _ sz 0 hhdr hs8 (by omega) hsW
  have hE : GET_ALLOC s (bp + sz - 4) = 0 := GET_ALLOC_of_word s _ nsz 0 hnh hn8 (by omega)
  have hJ : GET_SIZE s (bp + sz - 4) = nsz := GET_SIZE_of_word s _ nsz 0 hnh hn8 (by omega) (by omega)
  simp only [coalesce, HDRP, FTRP, NEXT_BLKP, PREV_BLKP, WSIZE, DSIZE]
  rw [hA, hB, (by omega : bp - psz + psz - 8 = bp - 8), hC, hD, hE, hJ]
  rw [if_neg (by norm_num), if_pos (by norm_num)]
  have hK : GET_SIZE (PUT s (bp - 4) (PACK (sz + nsz) 0)) (bp - 4) = sz + nsz :=
    GET_SIZE_PUT_pack s (bp - 4) (sz + nsz) 0 (by omega) (by omega) (by omega)
  rw [hK, (by omega : bp + (sz + nsz) - 8 = bp + sz + nsz - 8)]
  have hL : GET_SIZE (PUT (PUT s (bp - 4) (PACK (sz + nsz) 0)) (bp + sz + nsz - 8)
      (PACK (sz + nsz) 0)) (bp - 4) = sz + nsz := by
    rw [GET_SIZE_PUT_ne _ _ _ _ (by omega)]
    exact hK
  rw [hL, (by omega : bp + (sz + nsz) = bp + sz + nsz)]
  simp only [PUT_finder]
  by_cases hc : s.finder < bp + sz + nsz ∧ bp < s.finder
  · rw [if_pos hc, if_pos hc]
    rfl
  · rw [if_neg hc, if_neg hc]
    rfl

theorem coalesce_case3 (s : AState) (bp sz psz nsz : Nat)
    (hbp : psz + 8 ≤ bp)
    (hhdr : GET s (bp - 4) = PACK sz 0)
    (hpf : GET s (bp - 8) = PACK psz 0)
    (hph : GET s (bp - psz - 4) = PACK psz 0)
    (hnh : GET s (bp + sz - 4) = PACK nsz 1)
    (hs8 : sz % 8 = 0) (hp8 : psz % 8 = 0) (hn8 : nsz % 8 = 0)
    (hs16 : 16 ≤ sz) (hp16 : 16 ≤ psz)
    (hspW : sz + psz < W32) (hnW : nsz < W32) :
    coalesce s bp =
      (bp - psz, setFinder
        (PUT (PUT s (bp + sz - 8) (PACK (sz + psz) 0)) (bp - psz - 4) (PACK (sz + psz) 0))
        (if s.finder < bp + sz ∧ bp - psz < s.finder then bp - psz else s.finder)) := by
  have hsW : sz < W32 := by omega
  have hpW : psz < W32 := by omega
  have hA : GET_SIZE s (bp - 8) = psz := GET_SIZE_of_word s _ psz 0 hpf hp8 (by omega) hpW
  have hB : GET_SIZE s (bp - psz - 4) = psz := GET_SIZE_of_word s _ psz 0 hph hp8 (by omega) hpW
  have hC : GET_ALLOC s (bp - 8) = 0 := GET_ALLOC_of_word s _ psz 0 hpf hp8 (by omega)
  have hD : GET_SIZE s (bp - 4) = sz := GET_SIZE_of_word s _ sz 0 hhdr hs8 (by omega) hsW
  have hE : GET_ALLOC s (bp + sz - 4) = 1 := GET_ALLOC_of_word s _ nsz 1 hnh hn8 (by omega)
  simp only [coalesce, HDRP, FTRP, NEXT_BLKP, PREV_BLKP, WSIZE, DSIZE]
  rw [hA, hB, (by omega : bp - psz + psz - 8 = bp - 8), hC, hD, hE]
  rw [if_neg (by norm_num), if_neg (by norm_num), if_pos (by norm_num)]
  have hK : GET_SIZE (PUT s (bp + sz - 8) (PACK (sz + psz) 0)) (bp - 8) = psz := by
    rw [GET_SIZE_PUT_ne _ _ _ _ (by omega)]
    exact hA
  rw [hK]
  have hL : GET_SIZE (PUT (PUT s (bp + sz - 8) (PACK (sz + psz) 0)) (bp - psz - 4)
      (PACK (sz + psz) 0)) (bp - 8) = psz := by
    rw [GET_SIZE_PUT_ne _ _ _ _ (by omega), GET_SIZE_PUT_ne _ _ _ _ (by omega)]
    exact hA
  rw [hL]
  have hM : GET_SIZE (PUT (PUT s (bp + sz - 8) (PACK (sz + psz) 0)) (bp - psz - 4)
      (PACK (sz + psz) 0)) (bp - psz - 4) = sz + psz :=
    GET_SIZE_PUT_pack _ _ (sz + psz) 0 (by omega) (by omega) (by omega)
  rw [hM, (by omega : bp - psz + (sz + psz) = bp + sz)]
  simp only [PUT_finder]
  by_cases hc : s.finder < bp + sz ∧ bp - psz < s.finder
  · rw [if_pos hc, if_pos hc]
    rfl
  · rw [if_neg hc, if_neg hc]
    rfl

theorem coalesce_case4 (s : AState) (bp sz psz nsz : Nat)
    (hbp : psz + 8 ≤ bp)
    (hhdr : GET s (bp - 4) = PACK sz 0)
    (hpf : GET s (bp - 8) = PACK psz 0)
    (hph : GET s (bp - psz - 4) = PACK psz 0)
    (hnh : GET s (bp + sz - 4) = PACK nsz 0)
    (hnf : GET s (bp + sz + nsz - 8) = PACK nsz 0)
    (hs8 : sz % 8 = 0) (hp8 : psz % 8 = 0) (hn8 : nsz % 8 = 0)
    (hs16 : 16 ≤ sz) (hp16 : 16 ≤ psz) (hn16 : 16 ≤ nsz)
    (hW : sz + psz + nsz < W32) :
    coalesce s bp =
      (bp - psz, setFinder
        (PUT (PUT s (bp - psz - 4) (PACK (sz + psz + nsz) 0)) (bp + sz + nsz - 8)
          (PACK (sz + psz + nsz) 0))
        (if s.finder < bp + sz + nsz ∧ bp - psz < s.finder then bp - psz else s.finder)) := by
  have hsW : sz < W32 := by omega
  have hpW : psz < W32 := by omega
  have hnW : nsz < W32 := by omega
  have hA : GET_SIZE s (bp - 8) = psz := GET_SIZE_of_word s _ psz 0 hpf hp8 (by omega) hpW
  have hB : GET_SIZE s (bp - psz - 4) = psz := GET_SIZE_of_word s _ psz 0 hph hp8 (by omega) hpW
  have hC : GET_ALLOC s (bp - 8) = 0 := GET_ALLOC_of_word s _ psz 0 hpf hp8 (by omega)
  have hD : GET_SIZE s (bp - 4) = sz := GET_SIZE_of_word s _ sz 0 hhdr hs8 (by omega) hsW
  have hE : GET_ALLOC s (bp + sz - 4) = 0 := GET_ALLOC_of_word s _ nsz 0 hnh hn8 (by omega)
  have hJ : GET_SIZE s (bp + sz - 4) = nsz := GET_SIZE_of_word s _ nsz 0 hnh hn8 (by omega) hnW
  have hN : GET_SIZE s (bp + sz + nsz - 8) = nsz := GET_SIZE_of_word s _ nsz 0 hnf hn8 (by omega) hnW
  simp only [coalesce, HDRP, FTRP, NEXT_BLKP, PREV_BLKP, WSIZE, DSIZE]
  rw [hA, hB, (by omega : bp - psz + psz - 8 = bp - 8), hC, hD, hE, hJ,
    (by omega : bp + sz + nsz - 8 = bp + sz + nsz - 8), hN]
  rw [if_neg (by norm_num), if_neg (by norm_num), if_neg (by norm_num)]
  have hK : GET_SIZE (PUT s (bp - psz - 4) (PACK (sz + psz + nsz) 0)) (bp - 4) = sz := by
    rw [GET_SIZE_PUT_ne _ _ _ _ (by omega)]
    exact hD
  rw [hK]
  have hL : GET_SIZE (PUT s (bp - psz - 4) (PACK (sz + psz + nsz) 0)) (bp + sz - 4) = nsz := by
    rw [GET_SIZE_PUT_ne _ _ _ _ (by omega)]
    exact hJ
  rw [hL, (by omega : bp + sz + nsz - 8 = bp + sz + nsz - 8)]
  have hM : GET_SIZE (PUT (PUT s (bp - psz - 4) (PACK (sz + psz + nsz) 0)) (bp + sz + nsz - 8)
      (PACK (sz + psz + nsz) 0)) (bp - 8) = psz := by
    rw [GET_SIZE_PUT_ne _ _ _ _ (by omega), GET_SIZE_PUT_ne _ _ _ _ (by omega)]
    exact hA
  rw [hM]
  have hO : GET_SIZE (PUT (PUT s (bp - psz - 4) (PACK (sz + psz + nsz) 0)) (bp + sz + nsz - 8)
      (PACK (sz + psz + nsz) 0)) (bp - psz - 4) = sz + psz + nsz := by
    rw [GET_SIZE_PUT_ne _ _ _ _ (by omega)]
    exact GET_SIZE_PUT_pack _ _ (sz + psz + nsz) 0 (by omega) (by omega) (by omega)
  rw [hO, (by omega : bp - psz + (sz + psz + nsz) = bp + sz + nsz)]
  simp only [PUT_finder]
  by_cases hc : s.finder < bp + sz + nsz ∧ bp - psz < s.finder
  · rw [if_pos hc, if_pos hc]
    rfl
  · rw [if_neg hc, if_neg hc]
    rfl

end MM

namespace MM

/-- Unfolding `mm_free` (mm.c lines 283-289) up to its `coalesce` call:
clear the allocated bit in the header, then in the footer located through
the freshly written header. -/
theorem mm_free_unfold (s : AState) (bp sz : Nat)
    (hhdr : GET s (bp - 4) = PACK sz 1) (hs8 : sz % 8 = 0) (hsW : sz < W32) :
    mm_free s bp =
      (coalesce (PUT (PUT s (bp - 4) (PACK sz 0)) (bp + sz - 8) (PACK sz 0)) bp).2 := by
  have hD : GET_SIZE s (bp - 4) = sz := GET_SIZE_of_word s _ sz 1 hhdr hs8 (by omega) hsW
  simp only [mm_free, HDRP, FTRP, WSIZE, DSIZE]
  rw [hD]
  have h1 : GET_SIZE (PUT s (bp - 4) (PACK sz 0)) (bp - 4) = sz :=
    GET_SIZE_PUT_pack s (bp - 4) sz 0 hs8 (by omega) hsW
  rw [h1]

end MM

namespace MM

/-- C7: Given a free block whose header reads size `csize`, chosen for a
request of adjusted size `asize` with `asize ≤ csize`: if `csize - asize`
is at least the minimum block size (`2 * DSIZE` = 16 bytes), `place`
writes an allocated block of size `asize` (matching header and footer) and
a free block of size `csize - asize` immediately after it (matching header
and footer); otherwise it marks the entire block allocated at size `csize`
(matching header and footer). -/
theorem c7_place_split_or_whole (s : AState) (bp asize csize : Nat)
    (hbp : 8 ≤ bp)
    (hhdr : GET s (HDRP bp) = PACK csize 0)
    (hc8 : csize % ALIGNMENT = 0) (hcW : csize < W32)
    (ha8 : asize % ALIGNMENT = 0) (ha16 : 2 * DSIZE ≤ asize)
    (hle : asize ≤ csize) :
    (2 * DSIZE ≤ csize - asize →
      GET (place s bp asize) (HDRP bp) = PACK asize 1 ∧
      GET (place s bp asize) (bp + asize - DSIZE) = PACK asize 1 ∧
      GET (place s bp asize) (HDRP (bp + asize)) = PACK (csize - asize) 0 ∧
      GET (place s bp asize) (bp + asize + (csize - asize) - DSIZE) =
        PACK (csize - asize) 0) ∧
    (csize - asize < 2 * DSIZE →
      GET (place s bp asize) (HDRP bp) = PACK csize 1 ∧
      GET (place s bp asize) (bp + csize - DSIZE) = PACK csize 1) := by
  simp only [HDRP, WSIZE, DSIZE, ALIGNMENT] at *
  have haW : asize < W32 := lt_of_le_of_lt hle hcW
  have hspec := place_spec s bp asize csize hbp hhdr hc8 hcW ha8 (by omega) hle
  constructor
  · intro hrem
    rw [hspec.1 (by omega)]
    refine ⟨?_, ?_, ?_, ?_⟩
    · rw [GET_PUT_ne _ _ _ _ (by omega), GET_PUT_ne _ _ _ _ (by omega),
        GET_PUT_ne _ _ _ _ (by omega)]
      exact GET_PUT_pack s _ asize 1 ha8 (by omega) haW
    · rw [GET_PUT_ne _ _ _ _ (by omega), GET_PUT_ne _ _ _ _ (by omega)]
      exact GET_PUT_pack _ _ asize 1 ha8 (by omega) haW
    · rw [GET_PUT_ne _ _ _ _ (by omega)]
      exact GET_PUT_pack _ _ (csize - asize) 0 (by omega) (by omega) (by omega)
    · rw [(by omega : bp + asize + (csize - asize) - 8 = bp + csize - 8)]
      exact GET_PUT_pack _ _ (csize - asize) 0 (by omega) (by omega) (by omega)
  · intro hrem
    rw [hspec.2 (by omega)]
    constructor
    · rw [GET_PUT_ne _ _ _ _ (by omega)]
      exact GET_PUT_pack s _ csize 1 hc8 (by omega) hcW
    · exact GET_PUT_pack _ _ csize 1 hc8 (by omega) hcW

/-- A concrete heap fragment for exercising `place`: one free block of
size 4096 at payload address 24 (header at 20), as left by `mm_init`. -/
def c7s : AState :=
  { mem := fun a => if a = 20 then 4096 else 0, base := 8, brk := 4120,
    limit := 20971520, heap_listp := 16, finder := 16, firstHead := 0,
    freeHead := 0, num_freeblocks := 0 }

theorem c7_witness :
    GET (place c7s 24 16) (HDRP 24) = PACK 16 1 ∧
    GET (place c7s 24 16) (24 + 16 - DSIZE) = PACK 16 1 ∧
    GET (place c7s 24 16) (HDRP (24 + 16)) = PACK (4096 - 16) 0 ∧
    GET (place c7s 24 16) (24 + 16 + (4096 - 16) - DSIZE) = PACK (4096 - 16) 0 :=
  (c7_place_split_or_whole c7s 24 16 4096 (by decide) (by decide) (by decide)
    (by decide) (by decide) (by decide) (by decide)).1 (by decide)

end MM

namespace MM

/-- C8: `mm_free` on a just-freed block `b` (payload `bp`, size `sz`,
allocated) clears the allocated bit in `b`'s header and footer and then
coalesces by the four boundary-tag cases, given `b`'s neighbors: previous
block of size `psz` with allocation bit `pal` (footer at `bp - DSIZE`,
header at `HDRP (bp - psz)`), next block of size `nsz` with allocation bit
`nal` (header at `HDRP (bp + sz)`, footer — read only when it is free — at
`bp + sz + nsz - DSIZE`).  Case by case: both neighbors allocated leaves
`b` alone (both tag words of `b` cleared, everything else untouched); only
next free extends `b` by `nsz`; only previous free extends the previous
block to cover `b`, anchored at the previous block's address; both free
merges all three into one block anchored at the previous block's address
with size `psz + sz + nsz`; in every case the surviving header and footer
agree, and no word outside the named tag positions changes. -/
theorem c8_free_four_cases (s : AState) (bp sz psz pal nsz nal : Nat)
    (hbp : psz + 8 ≤ bp)
    (hhdr : GET s (HDRP bp) = PACK sz 1)
    (hpf : GET s (bp - DSIZE) = PACK psz pal)
    (hph : GET s (HDRP (bp - psz)) = PACK psz pal)
    (hnh : GET s (HDRP (bp + sz)) = PACK nsz nal)
    (hnf : nal = 0 → GET s (bp + sz + nsz - DSIZE) = PACK nsz nal)
    (hs8 : sz % ALIGNMENT = 0) (hp8 : psz % ALIGNMENT = 0) (hn8 : nsz % ALIGNMENT = 0)
    (hs16 : 16 ≤ sz) (hp08 : 8 ≤ psz)
    (hp16 : pal = 0 → 16 ≤ psz) (hn16 : nal = 0 → 16 ≤ nsz)
    (hpal : pal ≤ 1) (hnal : nal ≤ 1)
    (hW : psz + sz + nsz < W32) :
    (pal = 1 → nal = 1 →
      GET (mm_free s bp) (HDRP bp) = PACK sz 0 ∧
      GET (mm_free s bp) (bp + sz - DSIZE) = PACK sz 0 ∧
      (∀ a, a ≠ HDRP bp → a ≠ bp + sz - DSIZE → GET (mm_free s bp) a = GET s a)) ∧
    (pal = 1 → nal = 0 →
      GET (mm_free s bp) (HDRP bp) = PACK (sz + nsz) 0 ∧
      GET (mm_free s bp) (bp + sz + nsz - DSIZE) = PACK (sz + nsz) 0 ∧
      (∀ a, a ≠ HDRP bp → a ≠ bp + sz - DSIZE → a ≠ bp + sz + nsz - DSIZE →
        GET (mm_free s bp) a = GET s a)) ∧
    (pal = 0 → nal = 1 →
      GET (mm_free s bp) (HDRP (bp - psz)) = PACK (psz + sz) 0 ∧
      GET (mm_free s bp) (bp + sz - DSIZE) = PACK (psz + sz) 0 ∧
      (∀ a, a ≠ HDRP (bp - psz) → a ≠ HDRP bp → a ≠ bp + sz - DSIZE →
        GET (mm_free s bp) a = GET s a)) ∧
    (pal = 0 → nal = 0 →
      GET (mm_free s bp) (HDRP (bp - psz)) = PACK (psz + sz + nsz) 0 ∧
      GET (mm_free s bp) (bp + sz + nsz - DSIZE) = PACK (psz + sz + nsz) 0 ∧
      (∀ a, a ≠ HDRP (bp - psz) → a ≠ HDRP bp → a ≠ bp + sz - DSIZE →
        a ≠ bp + sz + nsz - DSIZE → GET (mm_free s bp) a = GET s a)) := by
  simp only [HDRP, WSIZE, DSIZE, ALIGNMENT] at *
  have hsW : sz < W32 := by omega
  have hpW : psz < W32 := by omega
  have hfree := mm_free_unfold s bp sz hhdr hs8 hsW
  set t2 := PUT (PUT s (bp - 4) (PACK sz 0)) (bp + sz - 8) (PACK sz 0) with ht2
  have h2hdr : GET t2 (bp - 4) = PACK sz 0 := by
    rw [ht2, GET_PUT_ne _ _ _ _ (by omega)]
    exact GET_PUT_pack s _ sz 0 hs8 (by omega) hsW
  have h2pf : GET t2 (bp - 8) = PACK psz pal := by
    rw [ht2, GET_PUT_ne _ _ _ _ (by omega), GET_PUT_ne _ _ _ _ (by omega)]
    exact hpf
  have h2ph : GET t2 (bp - psz - 4) = PACK psz pal := by
    rw [ht2, GET_PUT_ne _ _ _ _ (by omega), GET_PUT_ne _ _ _ _ (by omega)]
    exact hph
  have h2nh : GET t2 (bp + sz - 4) = PACK nsz nal := by
    rw [ht2, GET_PUT_ne _ _ _ _ (by omega), GET_PUT_ne _ _ _ _ (by omega)]
    exact hnh
  have h2ftr : GET t2 (bp + sz - 8) = PACK sz 0 :=
    GET_PUT_pack _ _ sz 0 hs8 (by omega) hsW
  refine ⟨?_, ?_, ?_, ?_⟩
  · intro hpe hne
    subst hpe
    subst hne
    have hcoal := coalesce_case1 t2 bp sz psz nsz hbp h2hdr h2pf h2ph h2nh hs8 hp8 hn8 hsW hpW
    have hst : mm_free s bp = t2 := by rw [hfree, hcoal]
    refine ⟨?_, ?_, ?_⟩
    · rw [hst]
      exact h2hdr
    · rw [hst]
      exact h2ftr
    · intro a ha1 ha2
      rw [hst, ht2, GET_PUT_ne _ _ _ _ ha2, GET_PUT_ne _ _ _ _ ha1]
  · intro hpe hne
    subst hpe
    subst hne
    have hn16' : 16 ≤ nsz := hn16 rfl
    have hcoal := coalesce_case2 t2 bp sz psz nsz hbp h2hdr h2pf h2ph h2nh hs8 hp8 hn8
      hs16 hn16' (by omega) hpW
    have hst : mm_free s bp = setFinder
        (PUT (PUT t2 (bp - 4) (PACK (sz + nsz) 0)) (bp + sz + nsz - 8) (PACK (sz + nsz) 0))
        (if t2.finder < bp + sz + nsz ∧ bp < t2.finder then bp else t2.finder) := by
      rw [hfree, hcoal]
    refine ⟨?_, ?_, ?_⟩
    · rw [hst]
      simp only [GET_setFinder]
      rw [GET_PUT_ne _ _ _ _ (by omega)]
      exact GET_PUT_pack _ _ (sz + nsz) 0 (by omega) (by omega) (by omega)
    · rw [hst]
      simp only [GET_setFinder]
      exact GET_PUT_pack _ _ (sz + nsz) 0 (by omega) (by omega) (by omega)
    · intro a ha1 ha2 ha3
      rw [hst]
      simp only [GET_setFinder]
      rw [GET_PUT_ne _ _ _ _ ha3, GET_PUT_ne _ _ _ _ ha1, ht2,
        GET_PUT_ne _ _ _ _ ha2, GET_PUT_ne _ _ _ _ ha1]
  · intro hpe hne
    subst hpe
    subst hne
    have hp16' : 16 ≤ psz := hp16 rfl
    have hcoal := coalesce_case3 t2 bp sz psz nsz hbp h2hdr h2pf h2ph h2nh hs8 hp8 hn8
      hs16 hp16' (by omega) (by omega)
    have hst : mm_free s bp = setFinder
        (PUT (PUT t2 (bp + sz - 8) (PACK (sz + psz) 0)) (bp - psz - 4) (PACK (sz + psz) 0))
        (if t2.finder < bp + sz ∧ bp - psz < t2.finder then bp - psz else t2.finder) := by
      rw [hfree, hcoal]
    have hcomm : sz + psz = psz + sz := by omega
    refine ⟨?_, ?_, ?_⟩
    · rw [hst]
      simp only [GET_setFinder]
      rw [← hcomm]
      exact GET_PUT_pack _ _ (sz + psz) 0 (by omega) (by omega) (by omega)
    · rw [hst]
      simp only [GET_setFinder]
      rw [← hcomm, GET_PUT_ne _ _ _ _ (by omega)]
      exact GET_PUT_pack _ _ (sz + psz) 0 (by omega) (by omega) (by omega)
    · intro a ha1 ha2 ha3
      rw [hst]
      simp only [GET_setFinder]
      rw [GET_PUT_ne _ _ _ _ ha1, GET_PUT_ne _ _ _ _ ha3, ht2,
        GET_PUT_ne _ _ _ _ ha3, GET_PUT_ne _ _ _ _ ha2]
  · intro hpe hne
    subst hpe
    subst hne
    have hp16' : 16 ≤ psz := hp16 rfl
    have hn16' : 16 ≤ nsz := hn16 rfl
    have h2nf : GET t2 (bp + sz + nsz - 8) = PACK nsz 0 := by
      rw [ht2, GET_PUT_ne _ _ _ _ (by omega), GET_PUT_ne _ _ _ _ (by omega)]
      exact hnf rfl
    have hcoal := coalesce_case4 t2 bp sz psz nsz hbp h2hdr h2pf h2ph h2nh h2nf
      hs8 hp8 hn8 hs16 hp16' hn16' (by omega)
    have hst : mm_free s bp = setFinder
        (PUT (PUT t2 (bp - psz - 4) (PACK (sz + psz + nsz) 0)) (bp + sz + nsz - 8)
          (PACK (sz + psz + nsz) 0))
        (if t2.finder < bp + sz + nsz ∧ bp - psz < t2.finder then bp - psz
          else t2.finder) := by
      rw [hfree, hcoal]
    have hcomm : sz + psz + nsz = psz + sz + nsz := by omega
    refine ⟨?_, ?_, ?_⟩
    · rw [hst]
      simp only [GET_setFinder]
      rw [← hcomm, GET_PUT_ne _ _ _ _ (by omega)]
      exact GET_PUT_pack _ _ (sz + psz + nsz) 0 (by omega) (by omega) (by omega)
    · rw [hst]
      simp only [GET_setFinder]
      rw [← hcomm]
      exact GET_PUT_pack _ _ (sz + psz + nsz) 0 (by omega) (by omega) (by omega)
    · intro a ha1 ha2 ha3 ha4
      rw [hst]
      simp only [GET_setFinder]
      rw [GET_PUT_ne _ _ _ _ ha4, GET_PUT_ne _ _ _ _ ha1, ht2,
        GET_PUT_ne _ _ _ _ ha3, GET_PUT_ne _ _ _ _ ha2]

/-- A concrete heap fragment for exercising `mm_free`: previous free block
of size 16 at 24, allocated block of size 16 at 40, next free block of
size 16 at 56 (the both-neighbors-free case). -/
def c8s : AState :=
  { mem := fun a =>
      if a = 20 then 16 else if a = 32 then 16 else if a = 36 then 17 else
      if a = 48 then 17 else if a = 52 then 16 else if a = 64 then 16 else 0,
    base := 8, brk := 96, limit := 20971520, heap_listp := 16, finder := 16,
    firstHead := 0, freeHead := 0, num_freeblocks := 0 }

theorem c8_witness :
    GET (mm_free c8s 40) (HDRP (40 - 16)) = PACK (16 + 16 + 16) 0 ∧
    GET (mm_free c8s 40) (40 + 16 + 16 - DSIZE) = PACK (16 + 16 + 16) 0 := by
  have h := (c8_free_four_cases c8s 40 16 16 0 16 0 (by decide) (by decide) (by decide)
    (by decide) (by decide) (fun _ => by decide) (by decide) (by decide) (by decide)
    (by decide) (by decide) (fun _ => by decide) (fun _ => by decide) (by decide)
    (by decide) (by decide)).2.2.2 rfl rfl
  exact ⟨h.1, h.2.1⟩

end MM

namespace MM

/-! ### The heap parse: block lists, their addresses, and the invariant -/

/-- Total byte size of a block list. -/
def btotal : List (Nat × Bool) → Nat
  | [] => 0
  | (sz, _) :: rest => sz + btotal rest

/-- The word encoding of an allocation flag. -/
def bitOf (al : Bool) : Nat := bif al then 1 else 0

/-- `chainOk s bp bs`: starting at payload address `bp`, the store parses
as the block sequence `bs` (size, allocated flag): every block has
matching header (at `bp - 4`) and footer (at `bp + sz - 8`) words, and a
size that is a multiple of 8, at least the minimum block size 16 and below
`2 ^ 32`. -/
def chainOk (s : AState) : Nat → List (Nat × Bool) → Bool
  | _, [] => true
  | bp, (sz, al) :: rest =>
    decide (16 ≤ sz) && decide (sz % 8 = 0) && decide (sz < W32) &&
    (GET s (bp - 4) == PACK sz (bitOf al)) &&
    (GET s (bp + sz - 8) == PACK sz (bitOf al)) &&
    chainOk s (bp + sz) rest

/-- The header and footer addresses read by `chainOk`. -/
def metaAddrs : Nat → List (Nat × Bool) → List Nat
  | _, [] => []
  | bp, (sz, _) :: rest => (bp - 4) :: (bp + sz - 8) :: metaAddrs (bp + sz) rest

/-- Payload addresses of the blocks of a list laid out from `bp`. -/
def mblockAddrs : Nat → List (Nat × Bool) → List Nat
  | _, [] => []
  | bp, (sz, _) :: rest => bp :: mblockAddrs (bp + sz) rest

/-- No two adjacent blocks of the list are both free. -/
def NoAdjFree (bs : List (Nat × Bool)) : Prop :=
  List.Chain' (fun a b => a.2 = true ∨ b.2 = true) bs

/-- `ptr` is the payload address of an allocated block of size `sz` in the
parse `bs` laid out from `start`. -/
def AllocAt (start : Nat) (bs : List (Nat × Bool)) (ptr sz : Nat) : Prop :=
  ∃ pre post, bs = pre ++ (sz, true) :: post ∧ ptr = start + btotal pre

/-- The global heap invariant relating an allocator state to its parse
`bs`: region bookkeeping of the (spec-modelled) memory system, prologue
and epilogue sentinel words, the block-sequence parse, exhaustive
coalescing, validity of the next-fit cursor `finder`, and the checker
globals that no allocator operation ever writes. -/
structure Inv (s : AState) (bs : List (Nat × Bool)) : Prop where
  base8 : s.base % 8 = 0
  baseGe : 8 ≤ s.base
  limW : s.base + s.limit < W32
  brkLe : s.brk ≤ s.base + s.limit
  hlp : s.heap_listp = s.base + 8
  proH : GET s (s.base + 4) = PACK 8 1
  proF : GET s (s.base + 8) = PACK 8 1
  epi : GET s (s.brk - 4) = PACK 0 1
  tot : s.base + 16 + btotal bs = s.brk
  chain : chainOk s (s.base + 16) bs = true
  noAdj : NoAdjFree bs
  fOk : s.finder = s.base + 8 ∨ s.finder = s.brk ∨ s.finder ∈ mblockAddrs (s.base + 16) bs
  fh0 : s.firstHead = 0
  fr0 : s.freeHead = 0
  nfb0 : s.num_freeblocks = 0

/-! ### Infrastructure lemmas about the parse -/

theorem btotal_append (xs ys : List (Nat × Bool)) :
    btotal (xs ++ ys) = btotal xs + btotal ys := by
  induction xs with
  | nil => simp [btotal]
  | cons hd rest ih =>
    obtain ⟨sz, al⟩ := hd
    simp [btotal, ih]
    omega

theorem chainOk_cons (s : AState) (bp sz : Nat) (al : Bool) (rest : List (Nat × Bool)) :
    chainOk s bp ((sz, al) :: rest) = true ↔
      16 ≤ sz ∧ sz % 8 = 0 ∧ sz < W32 ∧
      GET s (bp - 4) = PACK sz (bitOf al) ∧
      GET s (bp + sz - 8) = PACK sz (bitOf al) ∧
      chainOk s (bp + sz) rest = true := by
  simp [chainOk, Bool.and_eq_true, and_assoc]

theorem chainOk_append (s : AState) (bp : Nat) (xs ys : List (Nat × Bool)) :
    chainOk s bp (xs ++ ys) = true ↔
      chainOk s bp xs = true ∧ chainOk s (bp + btotal xs) ys = true := by
  induction xs generalizing bp with
  | nil => simp [chainOk, btotal]
  | cons hd rest ih =>
    obtain ⟨sz, al⟩ := hd
    rw [List.cons_append, chainOk_cons, chainOk_cons, ih]
    rw [btotal, (by omega : bp + (sz + btotal rest) = bp + sz + btotal rest)]
    tauto

theorem chainOk_mem_facts (s : AState) (bp : Nat) (bs : List (Nat × Bool))
    (h : chainOk s bp bs = true) :
    ∀ p ∈ bs, 16 ≤ p.1 ∧ p.1 % 8 = 0 ∧ p.1 < W32 := by
  induction bs generalizing bp with
  | nil => simp
  | cons hd rest ih =>
    obtain ⟨sz, al⟩ := hd
    rw [chainOk_cons] at h
    intro p hp
    rcases List.mem_cons.mp hp with h1 | h1
    · subst h1
      exact ⟨h.1, h.2.1, h.2.2.1⟩
    · exact ih (bp + sz) h.2.2.2.2.2 p h1

theorem btotal_mod8 (s : AState) (bp : Nat) (bs : List (Nat × Bool))
    (h : chainOk s bp bs = true) : btotal bs % 8 = 0 := by
  induction bs generalizing bp with
  | nil => simp [btotal]
  | cons hd rest ih =>
    obtain ⟨sz, al⟩ := hd
    rw [chainOk_cons] at h
    have := ih (bp + sz) h.2.2.2.2.2
    unfold btotal
    omega

theorem btotal_len (s : AState) (bp : Nat) (bs : List (Nat × Bool))
    (h : chainOk s bp bs = true) : 16 * bs.length ≤ btotal bs := by
  induction bs generalizing bp with
  | nil => simp [btotal]
  | cons hd rest ih =>
    obtain ⟨sz, al⟩ := hd
    rw [chainOk_cons] at h
    have := ih (bp + sz) h.2.2.2.2.2
    simp only [List.length_cons, btotal]
    omega

theorem chainOk_congr (s s' : AState) (bp : Nat) (bs : List (Nat × Bool))
    (h : ∀ a ∈ metaAddrs bp bs, GET s' a = GET s a) :
    chainOk s' bp bs = chainOk s bp bs := by
  induction bs generalizing bp with
  | nil => rfl
  | cons hd rest ih =>
    obtain ⟨sz, al⟩ := hd
    show (_ && _ && _ && (GET s' (bp - 4) == _) && (GET s' (bp + sz - 8) == _)
        && chainOk s' (bp + sz) rest) = _
    rw [h (bp - 4) (by simp [metaAddrs]), h (bp + sz - 8) (by simp [metaAddrs]),
      ih (bp + sz) (fun a ha => h a (by simp [metaAddrs, ha]))]
    rfl

theorem metaAddrs_bounds (bp : Nat) (bs : List (Nat × Bool))
    (hsz : ∀ p ∈ bs, 16 ≤ p.1) (hbp : 8 ≤ bp) :
    ∀ a ∈ metaAddrs bp bs, bp - 4 ≤ a ∧ a + 8 ≤ bp + btotal bs := by
  induction bs generalizing bp with
  | nil => simp [metaAddrs]
  | cons hd rest ih =>
    obtain ⟨sz, al⟩ := hd
    have hsz1 : 16 ≤ sz := hsz (sz, al) (by simp)
    intro a ha
    simp only [metaAddrs, List.mem_cons] at ha
    rcases ha with h1 | h1 | h1
    · subst h1
      unfold btotal
      omega
    · subst h1
      unfold btotal
      omega
    · have := ih (bp + sz) (fun p hp => hsz p (by simp [hp])) (by omega) a h1
      unfold btotal
      omega

theorem chainOk_PUT_keep (s : AState) (bp q v : Nat) (bs : List (Nat × Bool))
    (h : chainOk s bp bs = true) (hbp : 8 ≤ bp)
    (hq : q < bp - 4 ∨ bp + btotal bs - 8 < q) :
    chainOk (PUT s q v) bp bs = true := by
  rw [chainOk_congr (s := s)]
  · exact h
  · intro a ha
    have hb := metaAddrs_bounds bp bs (fun p hp => (chainOk_mem_facts s bp bs h p hp).1)
      hbp a ha
    exact GET_PUT_ne s q a v (by omega)

theorem mblockAddrs_append (bp : Nat) (xs ys : List (Nat × Bool)) :
    mblockAddrs bp (xs ++ ys) = mblockAddrs bp xs ++ mblockAddrs (bp + btotal xs) ys := by
  induction xs generalizing bp with
  | nil => simp [mblockAddrs, btotal]
  | cons hd rest ih =>
    obtain ⟨sz, al⟩ := hd
    simp only [List.cons_append, mblockAddrs, btotal, List.append_eq, ih]
    rw [(by omega : bp + (sz + btotal rest) = bp + sz + btotal rest)]

theorem mblockAddrs_mem (bp a : Nat) (bs : List (Nat × Bool)) :
    a ∈ mblockAddrs bp bs ↔
      ∃ pre sz al post, bs = pre ++ (sz, al) :: post ∧ a = bp + btotal pre := by
  constructor
  · intro h
    induction bs generalizing bp with
    | nil => simp [mblockAddrs] at h
    | cons hd rest ih =>
      obtain ⟨sz, al⟩ := hd
      simp only [mblockAddrs, List.mem_cons] at h
      rcases h with h1 | h1
      · exact ⟨[], sz, al, rest, by simp, by simp [btotal, h1]⟩
      · obtain ⟨pre, sz2, al2, post, hdec, haddr⟩ := ih (bp + sz) h1
        exact ⟨(sz, al) :: pre, sz2, al2, post, by simp [hdec], by simp [btotal]; omega⟩
  · rintro ⟨pre, sz, al, post, hdec, haddr⟩
    subst hdec
    rw [mblockAddrs_append]
    simp [mblockAddrs, haddr]

end MM

namespace MM

/-- The heap produced by a successful `mm_init` on a fresh region:
padding word, prologue header/footer, epilogue; then the `CHUNKSIZE`
extension writes the initial free block of size 4096 and the new epilogue
(the `coalesce` call inside `extend_heap` is case 1 and changes nothing). -/
def initHeapState (m0 : Nat → Nat) (base limit : Nat) : AState :=
  PUT (PUT (PUT (addBrk (setHlpFinder
      (PUT (PUT (PUT (PUT (addBrk (initState m0 base limit) 16) base 0)
        (base + 4) (PACK 8 1)) (base + 8) (PACK 8 1)) (base + 12) (PACK 0 1))
      (base + 8) (base + 8)) 4096)
    (base + 12) (PACK 4096 0)) (base + 4104) (PACK 4096 0)) (base + 4108) (PACK 0 1)

theorem mm_init_run (m0 : Nat → Nat) (base limit : Nat) (hb : 8 ≤ base)
    (hc2 : base + 4112 ≤ base + limit) :
    mm_init (initState m0 base limit) = some (initHeapState m0 base limit) := by
  unfold mm_init
  rw [mem_sbrk_eq_some _ _ (by simp [WSIZE]; omega)]
  dsimp only
  simp only [initState_brk, WSIZE, DSIZE, CHUNKSIZE]
  norm_num
  unfold extend_heap
  norm_num [sbrkRound, WSIZE]
  rw [mem_sbrk_eq_some _ _ (by simp; omega)]
  dsimp only
  simp only [setHlpFinder_brk, PUT_brk, addBrk_brk, initState_brk]
  simp only [HDRP, FTRP, NEXT_BLKP, WSIZE, DSIZE]
  rw [(by omega : base + 16 - 4 = base + 12)]
  rw [GET_SIZE_PUT_pack _ _ 4096 0 (by norm_num) (by norm_num) (by norm_num [W32])]
  rw [(by omega : base + 16 + 4096 - 8 = base + 4104)]
  rw [GET_SIZE_PUT_ne _ (base + 4104) (base + 12) _ (by omega)]
  rw [GET_SIZE_PUT_pack _ _ 4096 0 (by norm_num) (by norm_num) (by norm_num [W32])]
  rw [(by omega : base + 16 + 4096 - 4 = base + 4108)]
  set T4 : AState := PUT (PUT (PUT (addBrk (setHlpFinder
      (PUT (PUT (PUT (PUT (addBrk (initState m0 base limit) 16) base 0)
        (base + 4) (PACK 8 1)) (base + 8) (PACK 8 1)) (base + 12) (PACK 0 1))
      (base + 8) (base + 8)) 4096)
    (base + 12) (PACK 4096 0)) (base + 4104) (PACK 4096 0)) (base + 4108) (PACK 0 1)
    with hT4
  have hhdr : GET T4 (base + 16 - 4) = PACK 4096 0 := by
    rw [(by omega : base + 16 - 4 = base + 12), hT4,
      GET_PUT_ne _ _ _ _ (by omega), GET_PUT_ne _ _ _ _ (by omega)]
    exact GET_PUT_pack _ _ 4096 0 (by norm_num) (by norm_num) (by norm_num [W32])
  have hpf : GET T4 (base + 16 - 8) = PACK 8 1 := by
    rw [(by omega : base + 16 - 8 = base + 8), hT4,
      GET_PUT_ne _ _ _ _ (by omega), GET_PUT_ne _ _ _ _ (by omega),
      GET_PUT_ne _ _ _ _ (by omega), GET_addBrk, GET_setHlpFinder,
      GET_PUT_ne _ _ _ _ (by omega)]
    exact GET_PUT_pack _ _ 8 1 (by norm_num) (by norm_num) (by norm_num [W32])
  have hph : GET T4 (base + 16 - 8 - 4) = PACK 8 1 := by
    rw [(by omega : base + 16 - 8 - 4 = base + 4), hT4,
      GET_PUT_ne _ _ _ _ (by omega), GET_PUT_ne _ _ _ _ (by omega),
      GET_PUT_ne _ _ _ _ (by omega), GET_addBrk, GET_setHlpFinder,
      GET_PUT_ne _ _ _ _ (by omega), GET_PUT_ne _ _ _ _ (by omega)]
    exact GET_PUT_pack _ _ 8 1 (by norm_num) (by norm_num) (by norm_num [W32])
  have hnh : GET T4 (base + 16 + 4096 - 4) = PACK 0 1 := by
    rw [(by omega : base + 16 + 4096 - 4 = base + 4108), hT4]
    exact GET_PUT_pack _ _ 0 1 (by norm_num) (by norm_num) (by norm_num [W32])
  have hco := coalesce_case1 T4 (base + 16) 4096 8 0 (by omega) hhdr hpf hph hnh
    (by norm_num) (by norm_num) (by norm_num) (by norm_num [W32]) (by norm_num [W32])
  rw [hco]
  rfl

end MM

namespace MM

theorem mm_init_inv (m0 : Nat → Nat) (base limit : Nat)
    (hb8 : base % 8 = 0) (hb : 8 ≤ base) (hlim : base + limit < W32)
    (hc2 : base + 4112 ≤ base + limit) :
    Inv (initHeapState m0 base limit) [(4096, false)] := by
  have hbrk : (initHeapState m0 base limit).brk = base + 4112 := by
    simp [initHeapState]
  refine ⟨hb8, hb, by simpa using hlim, ?_, ?_, ?_, ?_, ?_, ?_, ?_, ?_, ?_, ?_, ?_, ?_⟩
  · simp [initHeapState]
    omega
  · simp [initHeapState]
  · show GET _ ((initHeapState m0 base limit).base + 4) = PACK 8 1
    simp only [initHeapState, PUT_base, addBrk_base, setHlpFinder_base, initState_base]
    rw [GET_PUT_ne _ _ _ _ (by omega), GET_PUT_ne _ _ _ _ (by omega),
      GET_PUT_ne _ _ _ _ (by omega), GET_addBrk, GET_setHlpFinder,
      GET_PUT_ne _ _ _ _ (by omega), GET_PUT_ne _ _ _ _ (by omega)]
    exact GET_PUT_pack _ _ 8 1 (by norm_num) (by norm_num) (by norm_num [W32])
  · show GET _ ((initHeapState m0 base limit).base + 8) = PACK 8 1
    simp only [initHeapState, PUT_base, addBrk_base, setHlpFinder_base, initState_base]
    rw [GET_PUT_ne _ _ _ _ (by omega), GET_PUT_ne _ _ _ _ (by omega),
      GET_PUT_ne _ _ _ _ (by omega), GET_addBrk, GET_setHlpFinder,
      GET_PUT_ne _ _ _ _ (by omega)]
    exact GET_PUT_pack _ _ 8 1 (by norm_num) (by norm_num) (by norm_num [W32])
  · show GET _ ((initHeapState m0 base limit).brk - 4) = PACK 0 1
    rw [hbrk, (by omega : base + 4112 - 4 = base + 4108)]
    show GET (PUT _ (base + 4108) (PACK 0 1)) (base + 4108) = PACK 0 1
    exact GET_PUT_pack _ _ 0 1 (by norm_num) (by norm_num) (by norm_num [W32])
  · show (initHeapState m0 base limit).base + 16 + btotal [(4096, false)] = _
    rw [hbrk]
    simp [initHeapState, btotal]
  · show chainOk _ ((initHeapState m0 base limit).base + 16) [(4096, false)] = true
    simp only [initHeapState, PUT_base, addBrk_base, setHlpFinder_base, initState_base]
    rw [chainOk_cons]
    refine ⟨by norm_num, by norm_num, by norm_num [W32], ?_, ?_, rfl⟩
    · rw [(by omega : base + 16 - 4 = base + 12)]
      show GET (PUT (PUT (PUT _ (base + 12) (PACK 4096 0)) (base + 4104) (PACK 4096 0))
        (base + 4108) (PACK 0 1)) (base + 12) = PACK 4096 (bitOf false)
      rw [GET_PUT_ne _ _ _ _ (by omega), GET_PUT_ne _ _ _ _ (by omega)]
      exact GET_PUT_pack _ _ 4096 0 (by norm_num) (by norm_num) (by norm_num [W32])
    · rw [(by omega : base + 16 + 4096 - 8 = base + 4104)]
      show GET (PUT (PUT _ (base + 4104) (PACK 4096 0)) (base + 4108) (PACK 0 1))
        (base + 4104) = PACK 4096 (bitOf false)
      rw [GET_PUT_ne _ _ _ _ (by omega)]
      exact GET_PUT_pack _ _ 4096 0 (by norm_num) (by norm_num) (by norm_num [W32])
  · exact List.chain'_singleton _
  · left
    simp [initHeapState]
  · simp [initHeapState, initState]
  · simp [initHeapState, initState]
  · simp [initHeapState, initState]

end MM

namespace MM

theorem bitOf_le_one (al : Bool) : bitOf al ≤ 1 := by
  cases al <;> simp [bitOf]

/-- Behaviour of the first `find_fit` loop on the suffix of the parse that
starts at `start`: it either stops at the epilogue (returning the final
cursor `s.brk` and no fit) or returns the first free block of the suffix
whose size fits. -/
theorem fitLoop_post (s : AState) (asize : Nat) :
    ∀ (post : List (Nat × Bool)) (start fuel : Nat),
      chainOk s start post = true →
      start + btotal post = s.brk →
      GET s (s.brk - 4) = PACK 0 1 →
      post.length < fuel →
      ∃ f1 r2, fitLoop s asize fuel start = some (f1, r2) ∧
        ((r2 = none ∧ f1 = s.brk) ∨
         (∃ sz pre2 post2, r2 = some f1 ∧
            post = pre2 ++ (sz, false) :: post2 ∧ f1 = start + btotal pre2 ∧
            asize ≤ sz)) := by
  intro post
  induction post with
  | nil =>
    intro start fuel hchain hend hepi hfuel
    obtain ⟨fuel, rfl⟩ : ∃ n, fuel = n + 1 := ⟨fuel - 1, by omega⟩
    have hstart : start = s.brk := by
      simp [btotal] at hend
      omega
    have h0 : GET_SIZE s (start - 4) = 0 := by
      rw [(by omega : start - 4 = s.brk - 4)]
      exact GET_SIZE_of_word s _ 0 1 hepi (by norm_num) (by norm_num) (by norm_num [W32])
    refine ⟨start, none, ?_, Or.inl ⟨rfl, hstart⟩⟩
    simp only [fitLoop, HDRP, WSIZE]
    rw [if_neg (by simp [h0])]
  | cons hd rest ih =>
    intro start fuel hchain hend hepi hfuel
    obtain ⟨sz, al⟩ := hd
    obtain ⟨fuel, rfl⟩ : ∃ n, fuel = n + 1 := ⟨fuel - 1, by omega⟩
    rw [chainOk_cons] at hchain
    obtain ⟨h16, h8, hW, hH, hF, hrest⟩ := hchain
    have hGS : GET_SIZE s (start - 4) = sz :=
      GET_SIZE_of_word s _ sz (bitOf al) hH h8 (bitOf_le_one al) hW
    have hGA : GET_ALLOC s (start - 4) = bitOf al :=
      GET_ALLOC_of_word s _ sz (bitOf al) hH h8 (bitOf_le_one al)
    by_cases hfit : al = false ∧ asize ≤ sz
    · refine ⟨start, some start, ?_,
        Or.inr ⟨sz, [], rest, rfl, by simp [hfit.1], by simp [btotal], hfit.2⟩⟩
      simp only [fitLoop, HDRP, WSIZE, hGS, hGA]
      rw [if_pos (by omega), if_pos (by simp [hfit.1, bitOf, hfit.2])]
    · have hend' : start + sz + btotal rest = s.brk := by
        simp [btotal] at hend
        omega
      obtain ⟨f1, r2, hrun, hres⟩ := ih (start + sz) fuel hrest hend' hepi
        (by simp at hfuel ⊢; omega)
      refine ⟨f1, r2, ?_, ?_⟩
      · simp only [fitLoop, HDRP, WSIZE, hGS, hGA]
        rw [if_pos (by omega), if_neg ?_]
        · rw [(by unfold NEXT_BLKP WSIZE; rw [hGS] : NEXT_BLKP s start = start + sz)]
          exact hrun
        · intro hcon
          rcases hcon with ⟨hb0, hble⟩
          cases al with
          | false => exact absurd ⟨rfl, hble⟩ hfit
          | true => simp [bitOf] at hb0
      · rcases hres with h | ⟨sz2, pre2, post2, hr2, hdec, hf1, hsz2⟩
        · exact Or.inl h
        · refine Or.inr ⟨sz2, (sz, al) :: pre2, post2, hr2, by simp [hdec], ?_, hsz2⟩
          simp [btotal, hf1]
          omega

end MM

namespace MM

theorem fitLoop2_post (s : AState) (asize temp : Nat) :
    ∀ (post : List (Nat × Bool)) (start fuel : Nat),
      chainOk s start post = true →
      start + btotal post = s.brk →
      temp ≤ s.brk →
      post.length < fuel →
      ∃ r2, fitLoop2 s asize temp fuel start = some r2 ∧
        (r2 = none ∨
         ∃ sz pre2 post2, r2 = some (start + btotal pre2) ∧
           post = pre2 ++ (sz, false) :: post2 ∧ asize ≤ sz) := by
  intro post
  induction post with
  | nil =>
    intro start fuel hchain hend htemp hfuel
    obtain ⟨fuel, rfl⟩ : ∃ n, fuel = n + 1 := ⟨fuel - 1, by omega⟩
    have hstart : start = s.brk := by
      simp [btotal] at hend
      omega
    refine ⟨none, ?_, Or.inl rfl⟩
    simp only [fitLoop2]
    rw [if_neg (by omega)]
  | cons hd rest ih =>
    intro start fuel hchain hend htemp hfuel
    obtain ⟨sz, al⟩ := hd
    obtain ⟨fuel, rfl⟩ : ∃ n, fuel = n + 1 := ⟨fuel - 1, by omega⟩
    rw [chainOk_cons] at hchain
    obtain ⟨h16, h8, hW, hH, hF, hrest⟩ := hchain
    have hGS : GET_SIZE s (start - 4) = sz :=
      GET_SIZE_of_word s _ sz (bitOf al) hH h8 (bitOf_le_one al) hW
    have hGA : GET_ALLOC s (start - 4) = bitOf al :=
      GET_ALLOC_of_word s _ sz (bitOf al) hH h8 (bitOf_le_one al)
    by_cases hguard : start < temp
    · by_cases hfit : al = false ∧ asize ≤ sz
      · refine ⟨some start, ?_,
          Or.inr ⟨sz, [], rest, by simp [btotal], by simp [hfit.1], hfit.2⟩⟩
        simp only [fitLoop2, HDRP, WSIZE, hGS, hGA]
        rw [if_pos hguard, if_pos (by simp [hfit.1, bitOf, hfit.2])]
      · have hend' : start + sz + btotal rest = s.brk := by
          simp [btotal] at hend
          omega
        obtain ⟨r2, hrun, hres⟩ := ih (start + sz) fuel hrest hend' htemp
          (by simp at hfuel ⊢; omega)
        refine ⟨r2, ?_, ?_⟩
        · simp only [fitLoop2, HDRP, WSIZE, hGS, hGA]
          rw [if_pos hguard, if_neg ?_]
          · rw [(by unfold NEXT_BLKP WSIZE; rw [hGS] : NEXT_BLKP s start = start + sz)]
            exact hrun
          · intro hcon
            rcases hcon with ⟨hb0, hble⟩
            cases al with
            | false => exact absurd ⟨rfl, hble⟩ hfit
            | true => simp [bitOf] at hb0
        · rcases hres with h | ⟨sz2, pre2, post2, hr2, hdec, hsz2⟩
          · exact Or.inl h
          · refine Or.inr ⟨sz2, (sz, al) :: pre2, post2, ?_, by simp [hdec], hsz2⟩
            rw [hr2]
            congr 1
            simp [btotal]
            omega
    · refine ⟨none, ?_, Or.inl rfl⟩
      simp only [fitLoop2]
      rw [if_neg hguard]

theorem btotal_le_of_decomp (bs pre : List (Nat × Bool)) (p : Nat × Bool)
    (post : List (Nat × Bool)) (h : bs = pre ++ p :: post) :
    btotal pre + p.1 ≤ btotal bs := by
  subst h
  rw [btotal_append]
  obtain ⟨sz, al⟩ := p
  simp [btotal]

theorem finder_le_brk (s : AState) (bs : List (Nat × Bool)) (hInv : Inv s bs) :
    s.finder ≤ s.brk := by
  rcases hInv.fOk with h | h | h
  · have := hInv.tot
    omega
  · omega
  · obtain ⟨pre, sz, al, post, hdec, haddr⟩ := (mblockAddrs_mem _ _ _).mp h
    have h1 := btotal_le_of_decomp bs pre (sz, al) post hdec
    have := hInv.tot
    simp at h1
    omega

theorem Inv_setFinder (s : AState) (bs : List (Nat × Bool)) (hInv : Inv s bs) (f : Nat)
    (hf : f = s.base + 8 ∨ f = s.brk ∨ f ∈ mblockAddrs (s.base + 16) bs) :
    Inv (setFinder s f) bs := by
  obtain ⟨h1, h2, h3, h4, h5, h6, h7, h8, h9, h10, h11, h12, h13, h14, h15⟩ := hInv
  refine ⟨by simpa, by simpa, by simpa, by simpa, by simpa, by simpa, by simpa,
    by simpa, by simpa, ?_, h11, by simpa using hf, by simpa, by simpa, by simpa⟩
  rw [show (setFinder s f).base = s.base from rfl,
    chainOk_congr s (setFinder s f) _ _ (fun a _ => rfl)]
  exact h10

/-- Behaviour of the first `find_fit` loop from any valid cursor position:
the cursor is `heap_listp`, the epilogue, or some block's payload
address. -/
theorem fitLoop_step_skip (s : AState) (asize fuel f : Nat)
    (hsz : GET_SIZE s (HDRP f) ≠ 0)
    (hns : ¬ (GET_ALLOC s (HDRP f) = 0 ∧ asize ≤ GET_SIZE s (HDRP f))) :
    fitLoop s asize (fuel + 1) f = fitLoop s asize fuel (NEXT_BLKP s f) := by
  simp only [fitLoop]
  rw [if_pos hsz, if_neg hns]

theorem fitLoop_start (s : AState) (bs : List (Nat × Bool)) (hInv : Inv s bs)
    (asize f : Nat)
    (hf : f = s.base + 8 ∨ f = s.brk ∨ f ∈ mblockAddrs (s.base + 16) bs) :
    ∃ f1 r2, fitLoop s asize s.brk f = some (f1, r2) ∧
      ((r2 = none ∧ f1 = s.brk) ∨
       (∃ sz pre post, r2 = some f1 ∧ bs = pre ++ (sz, false) :: post ∧
          f1 = s.base + 16 + btotal pre ∧ asize ≤ sz)) := by
  have htot := hInv.tot
  have hlen := btotal_len s (s.base + 16) bs hInv.chain
  rcases hf with hf | hf | hf
  · -- start at heap_listp: skip the prologue, then run over the whole parse
    subst hf
    obtain ⟨fuel, hfuel⟩ : ∃ n, s.brk = n + 1 := ⟨s.brk - 1, by omega⟩
    have hGS : GET_SIZE s (s.base + 8 - 4) = 8 := by
      rw [(by omega : s.base + 8 - 4 = s.base + 4)]
      exact GET_SIZE_of_word s _ 8 1 hInv.proH (by norm_num) (by norm_num)
        (by norm_num [W32])
    have hGA : GET_ALLOC s (s.base + 8 - 4) = 1 := by
      rw [(by omega : s.base + 8 - 4 = s.base + 4)]
      exact GET_ALLOC_of_word s _ 8 1 hInv.proH (by norm_num) (by norm_num)
    obtain ⟨f1, r2, hrun, hres⟩ := fitLoop_post s asize bs (s.base + 16) fuel
      hInv.chain htot hInv.epi (by omega)
    have hnb : NEXT_BLKP s (s.base + 8) = s.base + 16 := by
      unfold NEXT_BLKP WSIZE
      rw [hGS]
    refine ⟨f1, r2, ?_, ?_⟩
    · rw [hfuel, fitLoop_step_skip s asize fuel (s.base + 8) (by rw [HDRP, WSIZE, hGS]; omega)
        (by rw [HDRP, WSIZE, hGS, hGA]; omega), hnb]
      exact hrun
    · rcases hres with h | ⟨sz, pre2, post2, hr2, hdec, hf1, hsz⟩
      · exact Or.inl h
      · exact Or.inr ⟨sz, pre2, post2, hr2, hdec, hf1, hsz⟩
  · -- start at the epilogue
    subst hf
    obtain ⟨f1, r2, hrun, hres⟩ := fitLoop_post s asize [] s.brk s.brk
      rfl (by simp [btotal]) hInv.epi (by simp; omega)
    refine ⟨f1, r2, hrun, ?_⟩
    rcases hres with h | ⟨sz, pre2, post2, _, hdec, _, _⟩
    · exact Or.inl h
    · simp at hdec
  · -- start at some block address
    obtain ⟨pre, sz, al, post, hdec, haddr⟩ := (mblockAddrs_mem _ _ _).mp hf
    have hchain2 : chainOk s f ((sz, al) :: post) = true := by
      have := hInv.chain
      rw [hdec, chainOk_append] at this
      rw [haddr]
      exact this.2
    have hend2 : f + btotal ((sz, al) :: post) = s.brk := by
      have h2 : btotal bs = btotal pre + btotal ((sz, al) :: post) := by
        rw [hdec, btotal_append]
      omega
    have hflen : ((sz, al) :: post).length < s.brk := by
      have hlen2 : ((sz, al) :: post).length ≤ bs.length := by
        rw [hdec]
        simp
      omega
    obtain ⟨f1, r2, hrun, hres⟩ := fitLoop_post s asize ((sz, al) :: post) f s.brk
      hchain2 hend2 hInv.epi hflen
    refine ⟨f1, r2, hrun, ?_⟩
    rcases hres with h | ⟨sz2, pre2, post2, hr2, hdec2, hf1, hsz2⟩
    · exact Or.inl h
    · refine Or.inr ⟨sz2, pre ++ pre2, post2, hr2, ?_, ?_, hsz2⟩
      · rw [hdec, hdec2]
        simp
      · rw [hf1, haddr, btotal_append]
        omega

end MM

namespace MM

theorem fitLoop2_step_skip (s : AState) (asize temp fuel bp : Nat)
    (hguard : bp < temp)
    (hns : ¬ (GET_ALLOC s (HDRP bp) = 0 ∧ asize ≤ GET_SIZE s (HDRP bp))) :
    fitLoop2 s asize temp (fuel + 1) bp = fitLoop2 s asize temp fuel (NEXT_BLKP s bp) := by
  simp only [fitLoop2]
  rw [if_pos hguard, if_neg hns]

theorem fitLoop2_stop (s : AState) (asize temp fuel bp : Nat) (h : ¬ bp < temp) :
    fitLoop2 s asize temp (fuel + 1) bp = some none := by
  simp only [fitLoop2]
  rw [if_neg h]

theorem fitLoop2_from_hlp (s : AState) (bs : List (Nat × Bool)) (hInv : Inv s bs)
    (asize temp : Nat) (htemp : temp ≤ s.brk) :
    ∃ r2, fitLoop2 s asize temp s.brk (s.base + 8) = some r2 ∧
      (r2 = none ∨
       ∃ sz pre post, r2 = some (s.base + 16 + btotal pre) ∧
         bs = pre ++ (sz, false) :: post ∧ asize ≤ sz) := by
  have htot := hInv.tot
  have hlen := btotal_len s (s.base + 16) bs hInv.chain
  obtain ⟨fuel, hfuel⟩ : ∃ n, s.brk = n + 1 := ⟨s.brk - 1, by omega⟩
  by_cases hguard : s.base + 8 < temp
  · have hGS : GET_SIZE s (s.base + 8 - 4) = 8 := by
      rw [(by omega : s.base + 8 - 4 = s.base + 4)]
      exact GET_SIZE_of_word s _ 8 1 hInv.proH (by norm_num) (by norm_num)
        (by norm_num [W32])
    have hGA : GET_ALLOC s (s.base + 8 - 4) = 1 := by
      rw [(by omega : s.base + 8 - 4 = s.base + 4)]
      exact GET_ALLOC_of_word s _ 8 1 hInv.proH (by norm_num) (by norm_num)
    have hnb : NEXT_BLKP s (s.base + 8) = s.base + 16 := by
      unfold NEXT_BLKP WSIZE
      rw [hGS]
    obtain ⟨r2, hrun, hres⟩ := fitLoop2_post s asize temp bs (s.base + 16) fuel
      hInv.chain htot htemp (by omega)
    refine ⟨r2, ?_, hres⟩
    rw [hfuel, fitLoop2_step_skip s asize temp fuel (s.base + 8) hguard
      (by rw [HDRP, WSIZE, hGS, hGA]; omega), hnb]
    exact hrun
  · refine ⟨none, ?_, Or.inl rfl⟩
    rw [hfuel]
    exact fitLoop2_stop s asize temp fuel (s.base + 8) hguard

/-- Full specification of `find_fit` on a well-formed heap: it terminates,
returns the state with a still-valid cursor, and any returned block is a
free block of the parse whose size accommodates `asize`. -/
theorem find_fit_spec (s : AState) (bs : List (Nat × Bool)) (hInv : Inv s bs) (asize : Nat) :
    ∃ r f1, find_fit s asize = some (r, setFinder s f1) ∧
      Inv (setFinder s f1) bs ∧
      (∀ bp, r = some bp →
        ∃ sz pre post, bs = pre ++ (sz, false) :: post ∧
          bp = s.base + 16 + btotal pre ∧ asize ≤ sz) := by
  obtain ⟨f1, r2, hrun, hres⟩ := fitLoop_start s bs hInv asize s.finder hInv.fOk
  rcases hres with ⟨hr2, hf1brk⟩ | ⟨sz, pre, post, hr2, hdec, hf1, hsz⟩
  · -- first loop found nothing: cursor parked at the epilogue, run loop 2
    subst hr2
    subst hf1brk
    have hInv1 : Inv (setFinder s s.brk) bs :=
      Inv_setFinder s bs hInv s.brk (Or.inr (Or.inl rfl))
    have htemp : s.finder ≤ s.brk := finder_le_brk s bs hInv
    obtain ⟨r2', hrun2, hres2⟩ := fitLoop2_from_hlp (setFinder s s.brk) bs hInv1 asize
      s.finder (by simpa using htemp)
    refine ⟨r2', s.brk, ?_, hInv1, ?_⟩
    · simp only [find_fit]
      rw [hrun]
      dsimp only
      simp only [setFinder_brk, setFinder_base] at hrun2
      rw [show (setFinder s s.brk).heap_listp = s.base + 8 by
        simp [hInv.hlp]]
      simp only [setFinder_brk]
      rw [hrun2]
    · intro bp hbp
      rcases hres2 with h | ⟨sz, pre, post, hr2', hdec, hsz⟩
      · rw [h] at hbp
        exact absurd hbp (by simp)
      · rw [hr2'] at hbp
        obtain rfl : s.base + 16 + btotal pre = bp := by
          simpa using hbp
        exact ⟨sz, pre, post, hdec, by simp, hsz⟩
  · -- first loop found a fit
    subst hr2
    have hmem : f1 ∈ mblockAddrs (s.base + 16) bs :=
      (mblockAddrs_mem _ _ _).mpr ⟨pre, sz, false, post, hdec, hf1⟩
    have hInv1 : Inv (setFinder s f1) bs :=
      Inv_setFinder s bs hInv f1 (Or.inr (Or.inr hmem))
    refine ⟨some f1, f1, ?_, hInv1, ?_⟩
    · simp only [find_fit]
      rw [hrun]
    · intro bp hbp
      obtain rfl : f1 = bp := by simpa using hbp
      exact ⟨sz, pre, post, hdec, hf1, hsz⟩

end MM

namespace MM

/-! ### Parse surgery: replacing a middle segment of the block sequence -/

/-- An allocated block of `pre ++ (csize, false) :: post` survives, at the
same address and size, the replacement of the free middle block by any
segment of equal total size. -/
theorem AllocAt_replace_free (start : Nat) (pre post mid : List (Nat × Bool))
    (csize p psz : Nat) (hmid : btotal mid = csize)
    (h : AllocAt start (pre ++ (csize, false) :: post) p psz) :
    AllocAt start (pre ++ mid ++ post) p psz := by
  obtain ⟨pre1, post1, hdec, hp⟩ := h
  rcases List.append_eq_append_iff.mp hdec.symm with ⟨a', ha1, ha2⟩ | ⟨c', hc1, hc2⟩
  · cases a' with
    | nil => simp at ha2
    | cons q t =>
      rw [List.cons_append] at ha2
      injection ha2 with h1 h2
      refine ⟨pre1, t ++ mid ++ post, ?_, hp⟩
      rw [ha1, ← h1]
      simp
  · cases c' with
    | nil => simp at hc2
    | cons q t =>
      rw [List.cons_append] at hc2
      injection hc2 with h1 h2
      refine ⟨pre ++ mid ++ t, post1, ?_, ?_⟩
      · rw [h2]
        simp
      · rw [hp, hc1, ← h1]
        rw [btotal_append, btotal_append, btotal_append]
        simp [btotal]
        omega

/-- Block addresses are preserved by a middle-segment replacement of equal
total size whose own addresses only grow. -/
theorem mblockAddrs_replace (start : Nat) (pre mid mid' post : List (Nat × Bool))
    (htot : btotal mid' = btotal mid)
    (hsub : ∀ a, a ∈ mblockAddrs (start + btotal pre) mid →
      a ∈ mblockAddrs (start + btotal pre) mid') :
    ∀ a, a ∈ mblockAddrs start (pre ++ mid ++ post) →
      a ∈ mblockAddrs start (pre ++ mid' ++ post) := by
  intro a ha
  rw [List.append_assoc, mblockAddrs_append, mblockAddrs_append] at ha ⊢
  rw [htot]
  rw [List.mem_append, List.mem_append] at ha ⊢
  rcases ha with h | h
  · exact Or.inl h
  · rcases h with h | h
    · exact Or.inr (Or.inl (hsub a h))
    · exact Or.inr (Or.inr h)

/-- Rebuilding the heap invariant after an operation that only rewrites
words inside the span of a middle segment `mid` of the parse, replacing it
by a new segment `mid'` of the same total size. -/
theorem Inv_surgery (s s' : AState) (bs pre mid mid' post : List (Nat × Bool)) (bp : Nat)
    (hInv : Inv s bs)
    (hdec : bs = pre ++ mid ++ post)
    (hbp : bp = s.base + 16 + btotal pre)
    (htot : btotal mid' = btotal mid)
    (hbase : s'.base = s.base) (hbrk : s'.brk = s.brk) (hlimit : s'.limit = s.limit)
    (hhlp : s'.heap_listp = s.heap_listp)
    (hfh : s'.firstHead = 0) (hfr : s'.freeHead = 0) (hnfb : s'.num_freeblocks = 0)
    (hmem : ∀ a, a < bp - 4 ∨ bp + btotal mid - 8 < a → GET s' a = GET s a)
    (hmid : chainOk s' bp mid' = true)
    (hnoadj : NoAdjFree (pre ++ mid' ++ post))
    (hfinder : s'.finder = s.base + 8 ∨ s'.finder = s.brk ∨
      s'.finder ∈ mblockAddrs (s.base + 16) (pre ++ mid' ++ post)) :
    Inv s' (pre ++ mid' ++ post) := by
  have hchain := hInv.chain
  rw [hdec, List.append_assoc, chainOk_append, chainOk_append] at hchain
  obtain ⟨hcpre, hcmid, hcpost⟩ := hchain
  have htotbs : btotal bs = btotal pre + btotal mid + btotal post := by
    rw [hdec]
    simp [btotal_append]
    omega
  have htotI := hInv.tot
  have hbp16 : s.base + 16 ≤ bp := by omega
  refine ⟨?_, ?_, ?_, ?_, ?_, ?_, ?_, ?_, ?_, ?_, hnoadj, ?_, hfh, hfr, hnfb⟩
  · rw [hbase]; exact hInv.base8
  · rw [hbase]; exact hInv.baseGe
  · rw [hbase, hlimit]; exact hInv.limW
  · rw [hbase, hbrk, hlimit]; exact hInv.brkLe
  · rw [hhlp, hbase]; exact hInv.hlp
  · rw [hbase, hmem _ (by omega)]; exact hInv.proH
  · rw [hbase, hmem _ (by omega)]; exact hInv.proF
  · rw [hbrk, hmem _ (by omega : s.brk - 4 < bp - 4 ∨ bp + btotal mid - 8 < s.brk - 4)]
    exact hInv.epi
  · rw [hbase, hbrk]
    rw [List.append_assoc, btotal_append, btotal_append, htot]
    omega
  · rw [hbase, List.append_assoc, chainOk_append, chainOk_append]
    refine ⟨?_, ?_, ?_⟩
    · rw [chainOk_congr s s' _ _ ?_]
      · exact hcpre
      · intro a ha
        have hb := metaAddrs_bounds (s.base + 16) pre
          (fun p hp => (chainOk_mem_facts s _ pre hcpre p hp).1) (by omega) a ha
        exact hmem a (by omega)
    · rw [← hbp]
      exact hmid
    · rw [htot, chainOk_congr s s' _ _ ?_]
      · exact hcpost
      · intro a ha
        have hb := metaAddrs_bounds (s.base + 16 + btotal pre + btotal mid) post
          (fun p hp => (chainOk_mem_facts s _ post hcpost p hp).1) (by omega) a ha
        exact hmem a (by omega)
  · rcases hfinder with h | h | h
    · rw [hbase]; exact Or.inl h
    · rw [hbrk]; exact Or.inr (Or.inl h)
    · rw [hbase]; exact Or.inr (Or.inr h)

end MM

namespace MM

/-- Invariant-level specification of `place` on a free block of the parse:
the heap invariant is preserved (with the block split or fully allocated),
the placed block's header records at least `asize`, every previously
allocated block survives unchanged, and `bp` is now allocated. -/
theorem place_inv (s : AState) (bs pre post : List (Nat × Bool)) (bp csize asize : Nat)
    (hInv : Inv s bs)
    (hdec : bs = pre ++ (csize, false) :: post)
    (hbp : bp = s.base + 16 + btotal pre)
    (ha8 : asize % 8 = 0) (ha16 : 16 ≤ asize) (hle : asize ≤ csize) :
    ∃ bs', Inv (place s bp asize) bs' ∧
      asize ≤ GET_SIZE (place s bp asize) (bp - 4) ∧
      (∀ p psz, AllocAt (s.base + 16) bs p psz → AllocAt (s.base + 16) bs' p psz) ∧
      (∃ szb, AllocAt (s.base + 16) bs' bp szb ∧ asize ≤ szb) := by
  have hchain := hInv.chain
  rw [hdec, chainOk_append, chainOk_cons] at hchain
  obtain ⟨hcpre, h16c, h8c, hWc, hH, hF, hcpost⟩ := hchain
  have hH' : GET s (bp - 4) = PACK csize 0 := by
    rw [hbp]
    exact hH
  have hbp8 : 8 ≤ bp := by omega
  have haW : asize < W32 := lt_of_le_of_lt hle hWc
  have hnoadj := hInv.noAdj
  rw [hdec] at hnoadj
  obtain ⟨hnpre, hnrest, hnseam⟩ := List.chain'_append.mp hnoadj
  have hspec := place_spec s bp asize csize hbp8 hH' h8c hWc ha8 ha16 hle
  by_cases hrem : 16 ≤ csize - asize
  · -- split: [(asize, true), (csize - asize, false)]
    have hEq := hspec.1 hrem
    have hg1 : GET (place s bp asize) (bp - 4) = PACK asize 1 := by
      rw [hEq, GET_PUT_ne _ _ _ _ (by omega), GET_PUT_ne _ _ _ _ (by omega),
        GET_PUT_ne _ _ _ _ (by omega)]
      exact GET_PUT_pack _ _ asize 1 ha8 (by omega) haW
    have hg2 : GET (place s bp asize) (bp + asize - 8) = PACK asize 1 := by
      rw [hEq, GET_PUT_ne _ _ _ _ (by omega), GET_PUT_ne _ _ _ _ (by omega)]
      exact GET_PUT_pack _ _ asize 1 ha8 (by omega) haW
    have hg3 : GET (place s bp asize) (bp + asize - 4) = PACK (csize - asize) 0 := by
      rw [hEq, GET_PUT_ne _ _ _ _ (by omega)]
      exact GET_PUT_pack _ _ (csize - asize) 0 (by omega) (by omega) (by omega)
    have hg4 : GET (place s bp asize) (bp + csize - 8) = PACK (csize - asize) 0 := by
      rw [hEq]
      exact GET_PUT_pack _ _ (csize - asize) 0 (by omega) (by omega) (by omega)
    refine ⟨pre ++ [(asize, true), (csize - asize, false)] ++ post, ?_, ?_, ?_, ?_⟩
    · refine Inv_surgery s (place s bp asize) bs pre [(csize, false)]
        [(asize, true), (csize - asize, false)] post bp hInv (by simpa using hdec) hbp
        (by simp [btotal]; omega)
        (by rw [hEq]; simp) (by rw [hEq]; simp) (by rw [hEq]; simp)
        (by rw [hEq]; simp)
        (by rw [hEq]; simp [hInv.fh0]) (by rw [hEq]; simp [hInv.fr0])
        (by rw [hEq]; simp [hInv.nfb0]) ?_ ?_ ?_ ?_
      · intro a ha
        simp only [btotal] at ha
        rw [hEq, GET_PUT_ne _ _ _ _ (by omega), GET_PUT_ne _ _ _ _ (by omega),
          GET_PUT_ne _ _ _ _ (by omega), GET_PUT_ne _ _ _ _ (by omega)]
      · rw [chainOk_cons]
        refine ⟨ha16, ha8, haW, ?_, ?_, ?_⟩
        · exact hg1
        · exact hg2
        · rw [chainOk_cons]
          refine ⟨by omega, by omega, by omega, ?_, ?_, rfl⟩
          · exact hg3
          · rw [(by omega : bp + asize + (csize - asize) - 8 = bp + csize - 8)]
            exact hg4
      · show List.Chain' (fun a b => a.2 = true ∨ b.2 = true)
          (pre ++ [(asize, true), (csize - asize, false)] ++ post)
        rw [List.append_assoc]
        refine List.chain'_append.mpr ⟨hnpre, ?_, ?_⟩
        · refine List.chain'_cons.mpr ⟨Or.inl rfl, ?_⟩
          obtain ⟨hhead, hpost⟩ := List.chain'_cons'.mp hnrest
          exact List.chain'_cons'.mpr ⟨fun h hh => hhead h hh, hpost⟩
        · intro x hx y hy
          simp at hy
          rw [← hy]
          exact Or.inr rfl
      · have hfeq : (place s bp asize).finder = s.finder := by
          rw [hEq]
          simp
        rw [hfeq]
        rcases hInv.fOk with h | h | h
        · exact Or.inl h
        · exact Or.inr (Or.inl h)
        · refine Or.inr (Or.inr ?_)
          refine mblockAddrs_replace (s.base + 16) pre [(csize, false)]
            [(asize, true), (csize - asize, false)] post (by simp [btotal]; omega)
            ?_ s.finder (by rw [hdec] at h; simpa using h)
          intro a ha
          simp [mblockAddrs] at ha ⊢
          exact Or.inl ha
    · rw [show GET_SIZE (place s bp asize) (bp - 4) = asize from
        GET_SIZE_of_word _ _ asize 1 hg1 ha8 (by omega) haW]
    · intro p psz hp
      rw [hdec] at hp
      exact AllocAt_replace_free (s.base + 16) pre post _ csize p psz
        (by simp [btotal]; omega) hp
    · refine ⟨asize, ⟨pre, (csize - asize, false) :: post, by simp, hbp⟩, le_refl _⟩
  · -- no split: the whole block becomes allocated at size csize
    have hEq := hspec.2 (by omega)
    have hg1 : GET (place s bp asize) (bp - 4) = PACK csize 1 := by
      rw [hEq, GET_PUT_ne _ _ _ _ (by omega)]
      exact GET_PUT_pack _ _ csize 1 h8c (by omega) hWc
    have hg2 : GET (place s bp asize) (bp + csize - 8) = PACK csize 1 := by
      rw [hEq]
      exact GET_PUT_pack _ _ csize 1 h8c (by omega) hWc
    refine ⟨pre ++ [(csize, true)] ++ post, ?_, ?_, ?_, ?_⟩
    · refine Inv_surgery s (place s bp asize) bs pre [(csize, false)]
        [(csize, true)] post bp hInv (by simpa using hdec) hbp
        (by simp [btotal])
        (by rw [hEq]; simp) (by rw [hEq]; simp) (by rw [hEq]; simp)
        (by rw [hEq]; simp)
        (by rw [hEq]; simp [hInv.fh0]) (by rw [hEq]; simp [hInv.fr0])
        (by rw [hEq]; simp [hInv.nfb0]) ?_ ?_ ?_ ?_
      · intro a ha
        simp only [btotal] at ha
        rw [hEq, GET_PUT_ne _ _ _ _ (by omega), GET_PUT_ne _ _ _ _ (by omega)]
      · rw [chainOk_cons]
        exact ⟨h16c, h8c, hWc, hg1, hg2, rfl⟩
      · show List.Chain' (fun a b => a.2 = true ∨ b.2 = true)
          (pre ++ [(csize, true)] ++ post)
        rw [List.append_assoc]
        refine List.chain'_append.mpr ⟨hnpre, ?_, ?_⟩
        · obtain ⟨hhead, hpost⟩ := List.chain'_cons'.mp hnrest
          exact List.chain'_cons'.mpr ⟨fun h hh => Or.inl rfl, hpost⟩
        · intro x hx y hy
          simp at hy
          rw [← hy]
          exact Or.inr rfl
      · have hfeq : (place s bp asize).finder = s.finder := by
          rw [hEq]
          simp
        rw [hfeq]
        rcases hInv.fOk with h | h | h
        · exact Or.inl h
        · exact Or.inr (Or.inl h)
        · refine Or.inr (Or.inr ?_)
          refine mblockAddrs_replace (s.base + 16) pre [(csize, false)]
            [(csize, true)] post (by simp [btotal]) ?_ s.finder
            (by rw [hdec] at h; simpa using h)
          intro a ha
          simpa [mblockAddrs] using ha
    · rw [show GET_SIZE (place s bp asize) (bp - 4) = csize from
        GET_SIZE_of_word _ _ csize 1 hg1 h8c (by omega) hWc]
      exact hle
    · intro p psz hp
      rw [hdec] at hp
      exact AllocAt_replace_free (s.base + 16) pre post _ csize p psz
        (by simp [btotal]) hp
    · exact ⟨csize, ⟨pre, post, by simp, hbp⟩, hle⟩

end MM

namespace MM

theorem sbrkRound_mod8 (words : Nat) : sbrkRound words % 8 = 0 := by
  unfold sbrkRound WSIZE
  by_cases h : words % 2 = 1
  · rw [if_pos h]
    omega
  · rw [if_neg h]
    omega

theorem extend_none (s : AState) (words : Nat)
    (hno : ¬ s.brk + sbrkRound words ≤ s.base + s.limit) :
    extend_heap s words = none := by
  simp only [extend_heap]
  rw [mem_sbrk_eq_none _ _ hno]

theorem AllocAt_append (start : Nat) (bs ys : List (Nat × Bool)) (p psz : Nat)
    (h : AllocAt start bs p psz) : AllocAt start (bs ++ ys) p psz := by
  obtain ⟨pre, post, hdec, hp⟩ := h
  exact ⟨pre, post ++ ys, by rw [hdec]; simp, hp⟩

/-- Computation of `extend_heap` up to its `coalesce` call: the new free
block's header overwrites the old epilogue, its footer and the fresh
epilogue are written at the top. -/
theorem extend_run (s : AState) (words : Nat)
    (h16 : 16 ≤ sbrkRound words)
    (hok : s.brk + sbrkRound words ≤ s.base + s.limit)
    (hW : s.base + s.limit < W32) :
    extend_heap s words = some (coalesce
      (PUT (PUT (PUT (addBrk s (sbrkRound words)) (s.brk - 4) (PACK (sbrkRound words) 0))
        (s.brk + sbrkRound words - 8) (PACK (sbrkRound words) 0))
        (s.brk + sbrkRound words - 4) (PACK 0 1)) s.brk) := by
  have h8 : sbrkRound words % 8 = 0 := sbrkRound_mod8 words
  have hKW : sbrkRound words < W32 := by omega
  simp only [extend_heap]
  rw [mem_sbrk_eq_some _ _ hok]
  dsimp only
  simp only [HDRP, FTRP, NEXT_BLKP, WSIZE, DSIZE]
  rw [show GET_SIZE (PUT (addBrk s (sbrkRound words)) (s.brk - 4) (PACK (sbrkRound words) 0))
      (s.brk - 4) = sbrkRound words from GET_SIZE_PUT_pack _ _ _ 0 h8 (by omega) hKW]
  rw [show GET_SIZE (PUT (PUT (addBrk s (sbrkRound words)) (s.brk - 4)
      (PACK (sbrkRound words) 0)) (s.brk + sbrkRound words - 8) (PACK (sbrkRound words) 0))
      (s.brk - 4) = sbrkRound words from by
    rw [GET_SIZE_PUT_ne _ _ _ _ (by omega)]
    exact GET_SIZE_PUT_pack _ _ _ 0 h8 (by omega) hKW]

end MM

namespace MM

/-- `extend_heap` under the invariant: when the memory system can supply
`sbrkRound words` more bytes, the call succeeds, the heap grows by one free
block at the top (merged with a previously free last block by `coalesce`
case 3, line 313 of `mm.c`), the invariant is re-established, and every
allocated block is preserved. -/
theorem extend_inv (s : AState) (bs : List (Nat × Bool)) (hInv : Inv s bs) (words : Nat)
    (h16 : 16 ≤ sbrkRound words)
    (hok : s.brk + sbrkRound words ≤ s.base + s.limit) :
    ∃ bp1 s1 pre1 sz1, extend_heap s words = some (bp1, s1) ∧
      s1.base = s.base ∧
      Inv s1 (pre1 ++ [(sz1, false)]) ∧
      bp1 = s.base + 16 + btotal pre1 ∧
      sbrkRound words ≤ sz1 ∧
      (∀ p psz, AllocAt (s.base + 16) bs p psz →
        AllocAt (s.base + 16) (pre1 ++ [(sz1, false)]) p psz) := by
  obtain ⟨hb8, hbGe, hlW, hbrkLe, hhlp, hproH, hproF, hepi, htot, hchain, hnoAdj,
    hfOk, hfh, hfr, hnfb⟩ := hInv
  set K := sbrkRound words with hKdef
  have hK8 : K % 8 = 0 := sbrkRound_mod8 words
  have hbrk16 : s.base + 16 ≤ s.brk := by omega
  have hKW : K < W32 := by omega
  have hrun := extend_run s words h16 hok hlW
  set T := PUT (PUT (PUT (addBrk s K) (s.brk - 4) (PACK K 0))
      (s.brk + K - 8) (PACK K 0)) (s.brk + K - 4) (PACK 0 1) with hT
  have hTbase : T.base = s.base := rfl
  have hTbrk : T.brk = s.brk + K := rfl
  have hTlim : T.limit = s.limit := rfl
  have hThlp : T.heap_listp = s.heap_listp := rfl
  have hTfind : T.finder = s.finder := rfl
  have hTfh : T.firstHead = s.firstHead := rfl
  have hTfr : T.freeHead = s.freeHead := rfl
  have hTnfb : T.num_freeblocks = s.num_freeblocks := rfl
  have hTh : GET T (s.brk - 4) = PACK K 0 := by
    rw [hT, GET_PUT_ne _ _ _ _ (by omega), GET_PUT_ne _ _ _ _ (by omega)]
    exact GET_PUT_pack _ _ K 0 hK8 (by omega) hKW
  have hTf : GET T (s.brk + K - 8) = PACK K 0 := by
    rw [hT, GET_PUT_ne _ _ _ _ (by omega)]
    exact GET_PUT_pack _ _ K 0 hK8 (by omega) hKW
  have hTe : GET T (s.brk + K - 4) = PACK 0 1 := by
    rw [hT]
    exact GET_PUT_pack _ _ 0 1 (by omega) (by omega) (by omega)
  have hTold : ∀ a, a + 8 ≤ s.brk → GET T a = GET s a := by
    intro a ha
    rw [hT, GET_PUT_ne _ _ _ _ (by omega), GET_PUT_ne _ _ _ _ (by omega),
      GET_PUT_ne _ _ _ _ (by omega)]
    rfl
  rcases List.eq_nil_or_concat bs with hbs | ⟨bs0, ⟨lsz, lal⟩, hbs⟩
  · -- empty block list: the previous block is the prologue (allocated)
    subst hbs
    simp only [btotal] at htot
    have hco : coalesce T s.brk = (s.brk, T) := by
      refine coalesce_case1 T s.brk K 8 0 (by omega) hTh ?_ ?_ hTe hK8 (by norm_num)
        (by norm_num) hKW (by norm_num [W32])
      · rw [(by omega : s.brk - 8 = s.base + 8), hTold _ (by omega)]
        exact hproF
      · rw [(by omega : s.brk - 8 - 4 = s.base + 4), hTold _ (by omega)]
        exact hproH
    rw [hco] at hrun
    refine ⟨s.brk, T, [], K, hrun, hTbase, ?_, by simp [btotal]; omega, le_refl K, ?_⟩
    · constructor
      · rw [hTbase]; exact hb8
      · rw [hTbase]; exact hbGe
      · rw [hTbase, hTlim]; exact hlW
      · rw [hTbrk, hTbase, hTlim]; exact hok
      · rw [hThlp, hTbase]; exact hhlp
      · rw [hTbase, hTold _ (by omega)]; exact hproH
      · rw [hTbase, hTold _ (by omega)]; exact hproF
      · rw [hTbrk, (by omega : s.brk + K - 4 = s.brk + K - 4)]; exact hTe
      · rw [hTbase, hTbrk]; simp [btotal]; omega
      · rw [hTbase]
        refine (chainOk_cons T (s.base + 16) K false []).mpr
          ⟨h16, hK8, hKW, ?_, ?_, rfl⟩
        · rw [(by omega : s.base + 16 - 4 = s.brk - 4), hTh]
          rfl
        · rw [(by omega : s.base + 16 + K - 8 = s.brk + K - 8), hTf]
          rfl
      · simp [NoAdjFree]
      · rw [hTfind, hTbase]
        rcases hfOk with h | h | h
        · exact Or.inl h
        · refine Or.inr (Or.inr ?_)
          simp [mblockAddrs]
          omega
        · simp [mblockAddrs] at h
      · rw [hTfh]; exact hfh
      · rw [hTfr]; exact hfr
      · rw [hTnfb]; exact hnfb
    · intro p psz hA
      obtain ⟨pre, post, hdec, _⟩ := hA
      simp at hdec
  · -- non-empty block list: case split on the allocation bit of the last block
    rw [List.concat_eq_append] at hbs
    subst hbs
    rw [chainOk_append, chainOk_cons] at hchain
    obtain ⟨hc0, hl16, hl8, hlW2, hlhdr, hlftr, _⟩ := hchain
    rw [btotal_append] at htot
    simp only [btotal] at htot
    set pos := s.base + 16 + btotal bs0 with hpos
    have hposbrk : pos + lsz = s.brk := by omega
    have hszsum : ∀ p ∈ bs0, 16 ≤ p.1 := by
      intro p hp
      exact (chainOk_mem_facts s (s.base + 16) bs0 hc0 p hp).1
    have hmeta : ∀ a ∈ metaAddrs (s.base + 16) bs0, GET T a = GET s a := by
      intro a ha
      have hb := metaAddrs_bounds (s.base + 16) bs0 hszsum (by omega) a ha
      exact hTold a (by omega)
    have hThdr : GET T (s.brk - lsz - 4) = PACK lsz (bitOf lal) := by
      rw [(by omega : s.brk - lsz - 4 = pos - 4), hTold _ (by omega)]
      exact hlhdr
    have hTftr : GET T (s.brk - 8) = PACK lsz (bitOf lal) := by
      rw [(by omega : s.brk - 8 = pos + lsz - 8), hTold _ (by omega)]
      exact hlftr
    cases lal with
    | true =>
      -- previous block allocated: coalesce case 1, no merge
      have hco : coalesce T s.brk = (s.brk, T) := by
        refine coalesce_case1 T s.brk K lsz 0 (by omega) hTh ?_ ?_ hTe hK8 hl8
          (by norm_num) hKW hlW2
        · rw [hTftr]; rfl
        · rw [hThdr]; rfl
      rw [hco] at hrun
      refine ⟨s.brk, T, bs0 ++ [(lsz, true)], K, hrun, hTbase, ?_, ?_, le_refl K, ?_⟩
      · constructor
        · rw [hTbase]; exact hb8
        · rw [hTbase]; exact hbGe
        · rw [hTbase, hTlim]; exact hlW
        · rw [hTbrk, hTbase, hTlim]; exact hok
        · rw [hThlp, hTbase]; exact hhlp
        · rw [hTbase, hTold _ (by omega)]; exact hproH
        · rw [hTbase, hTold _ (by omega)]; exact hproF
        · rw [hTbrk]; exact hTe
        · rw [hTbase, hTbrk, btotal_append, btotal_append]
          simp [btotal]
          omega
        · rw [hTbase, chainOk_append, chainOk_append, chainOk_cons, chainOk_cons,
            btotal_append]
          simp only [btotal]
          refine ⟨⟨?_, hl16, hl8, hlW2, ?_, ?_, rfl⟩, h16, hK8, hKW, ?_, ?_, rfl⟩
          · rw [chainOk_congr s T (s.base + 16) bs0 hmeta]
            exact hc0
          · rw [(by omega : s.base + 16 + btotal bs0 - 4 = s.brk - lsz - 4), hThdr]
          · rw [(by omega : s.base + 16 + btotal bs0 + lsz - 8 = s.brk - 8), hTftr]
          · rw [(by omega : s.base + 16 + (btotal bs0 + (lsz + 0)) - 4 = s.brk - 4), hTh]
            rfl
          · rw [(by omega : s.base + 16 + (btotal bs0 + (lsz + 0)) + K - 8 =
              s.brk + K - 8), hTf]
            rfl
        · show List.Chain' _ ((bs0 ++ [(lsz, true)]) ++ [(K, false)])
          refine List.chain'_append.mpr ⟨hnoAdj, List.chain'_singleton _, ?_⟩
          intro x hx y hy
          rw [List.getLast?_concat] at hx
          simp at hx
          rw [← hx]
          exact Or.inl rfl
        · rw [hTfind, hTbase]
          rcases hfOk with h | h | h
          · exact Or.inl h
          · refine Or.inr (Or.inr ?_)
            rw [mblockAddrs_append, List.mem_append]
            right
            simp [mblockAddrs, btotal_append, btotal]
            omega
          · refine Or.inr (Or.inr ?_)
            rw [mblockAddrs_append, List.mem_append]
            exact Or.inl h
        · rw [hTfh]; exact hfh
        · rw [hTfr]; exact hfr
        · rw [hTnfb]; exact hnfb
      · rw [btotal_append]
        simp [btotal]
        omega
      · intro p psz hA
        exact AllocAt_append _ _ _ _ _ hA
    | false =>
      -- previous block free: coalesce case 3 merges it with the new block
      have hlsztot : lsz ≤ btotal bs0 + lsz := by omega
      have hspW : K + lsz < W32 := by omega
      have hco := coalesce_case3 T s.brk K lsz 0 (by omega) hTh
        (by rw [hTftr]; rfl) (by rw [hThdr]; rfl) hTe hK8 hl8 (by norm_num)
        h16 hl16 hspW (by norm_num [W32])
      rw [hco] at hrun
      set fnd := if T.finder < s.brk + K ∧ s.brk - lsz < T.finder then s.brk - lsz
        else T.finder with hfnd
      set U := setFinder (PUT (PUT T (s.brk + K - 8) (PACK (K + lsz) 0))
        (s.brk - lsz - 4) (PACK (K + lsz) 0)) fnd with hU
      have hUbase : U.base = s.base := rfl
      have hUbrk : U.brk = s.brk + K := rfl
      have hUlim : U.limit = s.limit := rfl
      have hUhlp : U.heap_listp = s.heap_listp := rfl
      have hUfind : U.finder = fnd := rfl
      have hUfh : U.firstHead = s.firstHead := rfl
      have hUfr : U.freeHead = s.freeHead := rfl
      have hUnfb : U.num_freeblocks = s.num_freeblocks := rfl
      have hKl8 : (K + lsz) % 8 = 0 := by omega
      have hUold : ∀ a, a + 8 ≤ pos → GET U a = GET s a := by
        intro a ha
        rw [hU, GET_setFinder, GET_PUT_ne _ _ _ _ (by omega),
          GET_PUT_ne _ _ _ _ (by omega)]
        exact hTold a (by omega)
      have hUhdr : GET U (pos - 4) = PACK (K + lsz) 0 := by
        rw [hU, GET_setFinder, (by omega : pos - 4 = s.brk - lsz - 4)]
        exact GET_PUT_pack _ _ (K + lsz) 0 hKl8 (by omega) hspW
      have hUftr : GET U (s.brk + K - 8) = PACK (K + lsz) 0 := by
        rw [hU, GET_setFinder, GET_PUT_ne _ _ _ _ (by omega)]
        exact GET_PUT_pack _ _ (K + lsz) 0 hKl8 (by omega) hspW
      have hUepi : GET U (s.brk + K - 4) = PACK 0 1 := by
        rw [hU, GET_setFinder, GET_PUT_ne _ _ _ _ (by omega),
          GET_PUT_ne _ _ _ _ (by omega)]
        exact hTe
      have hUmeta : ∀ a ∈ metaAddrs (s.base + 16) bs0, GET U a = GET s a := by
        intro a ha
        have hb := metaAddrs_bounds (s.base + 16) bs0 hszsum (by omega) a ha
        exact hUold a (by omega)
      refine ⟨s.brk - lsz, U, bs0, K + lsz, hrun, hUbase, ?_, by omega, by omega, ?_⟩
      · constructor
        · rw [hUbase]; exact hb8
        · rw [hUbase]; exact hbGe
        · rw [hUbase, hUlim]; exact hlW
        · rw [hUbrk, hUbase, hUlim]; exact hok
        · rw [hUhlp, hUbase]; exact hhlp
        · rw [hUbase, hUold _ (by omega)]; exact hproH
        · rw [hUbase, hUold _ (by omega)]; exact hproF
        · rw [hUbrk]; exact hUepi
        · rw [hUbase, hUbrk, btotal_append]
          simp [btotal]
          omega
        · rw [hUbase, chainOk_append, chainOk_cons]
          refine ⟨?_, ⟨by omega, hKl8, hspW, ?_, ?_, rfl⟩⟩
          · rw [chainOk_congr s U (s.base + 16) bs0 hUmeta]
            exact hc0
          · rw [(by omega : s.base + 16 + btotal bs0 - 4 = pos - 4), hUhdr]
            rfl
          · rw [(by omega : s.base + 16 + btotal bs0 + (K + lsz) - 8 = s.brk + K - 8),
              hUftr]
            rfl
        · obtain ⟨hn0, _, hseam⟩ := List.chain'_append.mp hnoAdj
          show List.Chain' _ (bs0 ++ [(K + lsz, false)])
          refine List.chain'_append.mpr ⟨hn0, List.chain'_singleton _, ?_⟩
          intro x hx y hy
          simp at hy
          rw [← hy]
          have := hseam x hx (lsz, false) (by simp)
          simp at this
          exact Or.inl this
        · rw [hUfind, hfnd, hTfind]
          by_cases hc : s.finder < s.brk + K ∧ s.brk - lsz < s.finder
          · rw [if_pos hc]
            refine Or.inr (Or.inr ?_)
            rw [hUbase, mblockAddrs_append]
            simp [mblockAddrs]
            omega
          · rw [if_neg hc]
            rcases hfOk with h | h | h
            · rw [hUbase]; exact Or.inl h
            · exfalso
              apply hc
              omega
            · refine Or.inr (Or.inr ?_)
              rw [hUbase, mblockAddrs_append]
              rw [mblockAddrs_append] at h
              rw [List.mem_append] at h ⊢
              rcases h with h | h
              · exact Or.inl h
              · right
                simp [mblockAddrs] at h ⊢
                omega
        · rw [hUfh]; exact hfh
        · rw [hUfr]; exact hfr
        · rw [hUnfb]; exact hnfb
      · intro p psz hA
        obtain ⟨pre, post, hdec, hp⟩ := hA
        rcases List.eq_nil_or_concat post with hpost | ⟨post0, y, hpost⟩
        · subst hpost
          have := congrArg List.getLast? hdec
          simp [List.getLast?_concat] at this
        · rw [List.concat_eq_append] at hpost
          subst hpost
          have hconc : bs0 ++ [(lsz, false)] = (pre ++ (psz, true) :: post0) ++ [y] := by
            rw [hdec]
            simp
          have hy : y = (lsz, false) := by
            have := congrArg List.getLast? hconc
            rw [List.getLast?_concat, List.getLast?_concat] at this
            exact (Option.some_inj.mp this).symm
          have hb0 : bs0 = pre ++ (psz, true) :: post0 := by
            have h2 := congrArg List.dropLast hconc
            rw [List.dropLast_concat, List.dropLast_concat] at h2
            exact h2
          exact ⟨pre, post0 ++ [(K + lsz, false)], by rw [hb0]; simp, hp⟩

end MM

namespace MM

theorem asizeOf_mod8 (n : Nat) : asizeOf n % 8 = 0 := by
  unfold asizeOf DSIZE
  split
  · norm_num
  · omega

/-- For overflow-free request sizes the adjusted size covers the request
plus the 8 bytes of header and footer (mm.c lines 194-197). -/
theorem asizeOf_spec (n : Nat) (hn : n + 16 ≤ W64) (h0 : 0 < n) :
    16 ≤ asizeOf n ∧ n + 8 ≤ asizeOf n := by
  unfold asizeOf DSIZE W64
  unfold W64 at hn
  by_cases h1 : n ≤ 8
  · rw [if_pos h1]
    omega
  · rw [if_neg h1]
    omega

/-- The byte count handed to `mem_sbrk` when `mm_malloc` extends the heap
is exactly `MAX(asize, CHUNKSIZE)`: that quantity is a multiple of 8, so
`extend_heap`'s word-parity rounding adds nothing. -/
theorem extendAmt_eq (n : Nat) : extendAmt n = max (asizeOf n) CHUNKSIZE := by
  have h8 : asizeOf n % 8 = 0 := asizeOf_mod8 n
  have hM : max (asizeOf n) CHUNKSIZE % 8 = 0 := by
    rw [Nat.max_def]
    split
    · norm_num [CHUNKSIZE]
    · exact h8
  unfold extendAmt sbrkRound WSIZE
  rw [if_neg (by omega)]
  omega

theorem place_base (s : AState) (bp asize : Nat) : (place s bp asize).base = s.base := by
  simp only [place]
  split <;> rfl

theorem place_brk (s : AState) (bp asize : Nat) : (place s bp asize).brk = s.brk := by
  simp only [place]
  split <;> rfl

/-- `mm_malloc` under the invariant: for any overflow-free request the call
terminates, preserves the invariant for some block parse, keeps every
previously allocated block, and a returned pointer is 8-aligned and heads
an allocated block whose size covers the request plus its header and
footer. -/
theorem malloc_step (s : AState) (bs : List (Nat × Bool)) (hInv : Inv s bs) (n : Nat)
    (hn : n + 16 ≤ W64) :
    ∃ r s1, mm_malloc s n = some (r, s1) ∧ s1.base = s.base ∧
      ∃ bs1, Inv s1 bs1 ∧
        (∀ p psz, AllocAt (s.base + 16) bs p psz → AllocAt (s.base + 16) bs1 p psz) ∧
        ∀ bp, r = some bp → bp % 8 = 0 ∧ n + 8 ≤ GET_SIZE s1 (bp - 4) ∧
          ∃ szb, AllocAt (s.base + 16) bs1 bp szb ∧ n + 8 ≤ szb := by
  by_cases h0 : n = 0
  · subst h0
    refine ⟨none, s, by simp [mm_malloc], rfl, bs, hInv, fun p psz h => h, ?_⟩
    intro bp hbp
    cases hbp
  · have h0' : 0 < n := Nat.pos_of_ne_zero h0
    have ha8 : asizeOf n % 8 = 0 := asizeOf_mod8 n
    obtain ⟨ha16, han8⟩ := asizeOf_spec n hn h0'
    obtain ⟨r0, f1, hff, hInv1, hfit⟩ := find_fit_spec s bs hInv (asizeOf n)
    cases r0 with
    | some bp =>
      obtain ⟨sz, pre, post, hdec, hbp, hsz⟩ := hfit bp rfl
      obtain ⟨bs1, hInv2, hge, hpres, szb, hba, hszb⟩ :=
        place_inv (setFinder s f1) bs pre post bp sz (asizeOf n) hInv1 hdec hbp ha8 ha16 hsz
      refine ⟨some bp, place (setFinder s f1) bp (asizeOf n), ?_, ?_, bs1, hInv2, hpres, ?_⟩
      · simp only [mm_malloc]
        rw [if_neg h0, hff]
      · rw [place_base]
        rfl
      · intro bp2 hbp2
        injection hbp2 with hbp2
        subst hbp2
        have hchain := hInv1.chain
        rw [hdec, chainOk_append] at hchain
        have hm := btotal_mod8 _ _ _ hchain.1
        have hb8 := hInv.base8
        exact ⟨by omega, by omega, szb, hba, by omega⟩
    | none =>
      have hE : extendAmt n = max (asizeOf n) CHUNKSIZE := extendAmt_eq n
      have h16' : 16 ≤ sbrkRound (max (asizeOf n) CHUNKSIZE / WSIZE) := by
        show 16 ≤ extendAmt n
        rw [hE]
        exact le_trans (by norm_num [CHUNKSIZE]) (le_max_right _ _)
      have hale : asizeOf n ≤ sbrkRound (max (asizeOf n) CHUNKSIZE / WSIZE) := by
        show asizeOf n ≤ extendAmt n
        rw [hE]
        exact le_max_left _ _
      by_cases hok : (setFinder s f1).brk + sbrkRound (max (asizeOf n) CHUNKSIZE / WSIZE) ≤
          (setFinder s f1).base + (setFinder s f1).limit
      · obtain ⟨bp1, s2, pre1, sz1, hext, hbase2, hInv2, hbp1, hK, hpres1⟩ :=
          extend_inv (setFinder s f1) bs hInv1 _ h16' hok
        have hle' : asizeOf n ≤ sz1 := by omega
        have hbp1' : bp1 = s2.base + 16 + btotal pre1 := by
          rw [hbase2]
          exact hbp1
        obtain ⟨bs2, hInv3, hge, hpres2, szb, hba, hszb⟩ :=
          place_inv s2 (pre1 ++ [(sz1, false)]) pre1 [] bp1 sz1 (asizeOf n)
            hInv2 rfl hbp1' ha8 ha16 hle'
        rw [hbase2] at hpres2 hba
        refine ⟨some bp1, place s2 bp1 (asizeOf n), ?_, ?_, bs2, hInv3,
          fun p psz h => hpres2 p psz (hpres1 p psz h), ?_⟩
        · simp only [mm_malloc]
          rw [if_neg h0, hff]
          dsimp only
          rw [hext]
        · rw [place_base, hbase2]
          rfl
        · intro bp2 hbp2
          injection hbp2 with hbp2
          subst hbp2
          have hchain := hInv2.chain
          rw [chainOk_append] at hchain
          have hm := btotal_mod8 _ _ _ hchain.1
          have hb8 := hInv.base8
          simp only [setFinder_base] at hbp1
          exact ⟨by omega, by omega, szb, hba, by omega⟩
      · refine ⟨none, setFinder s f1, ?_, rfl, bs, hInv1, fun p psz h => h, ?_⟩
        · simp only [mm_malloc]
          rw [if_neg h0, hff]
          dsimp only
          rw [extend_none _ _ hok]
        · intro bp hbp
          cases hbp

end MM

namespace MM

theorem metaAddrs_append (bp : Nat) (xs ys : List (Nat × Bool)) :
    metaAddrs bp (xs ++ ys) = metaAddrs bp xs ++ metaAddrs (bp + btotal xs) ys := by
  induction xs generalizing bp with
  | nil => simp [metaAddrs, btotal]
  | cons hd rest ih =>
    obtain ⟨sz, al⟩ := hd
    simp only [List.cons_append, metaAddrs, btotal, List.append_eq, ih]
    rw [(by omega : bp + (sz + btotal rest) = bp + sz + btotal rest)]

theorem mem_mblockAddrs_cons (q esz a : Nat) (eal : Bool) (post : List (Nat × Bool)) :
    a ∈ mblockAddrs q ((esz, eal) :: post) ↔ a = q ∨ a ∈ mblockAddrs (q + esz) post := by
  simp [mblockAddrs]

theorem mem_mblockAddrs_split (start a : Nat) (pre : List (Nat × Bool)) (esz : Nat)
    (eal : Bool) (post : List (Nat × Bool)) :
    a ∈ mblockAddrs start (pre ++ (esz, eal) :: post) ↔
      a ∈ mblockAddrs start pre ∨ a = start + btotal pre ∨
      a ∈ mblockAddrs (start + btotal pre + esz) post := by
  rw [mblockAddrs_append, List.mem_append, mem_mblockAddrs_cons]

theorem NoAdjFree_mid (pre post : List (Nat × Bool)) (SZ : Nat)
    (hpre : List.Chain' (fun a b => a.2 = true ∨ b.2 = true) pre)
    (hpost : List.Chain' (fun a b => a.2 = true ∨ b.2 = true) post)
    (hpreLast : ∀ x ∈ pre.getLast?, x.2 = true)
    (hpostHead : ∀ y ∈ post.head?, y.2 = true) :
    NoAdjFree (pre ++ [(SZ, false)] ++ post) := by
  show List.Chain' _ (pre ++ [(SZ, false)] ++ post)
  rw [List.append_assoc]
  refine List.chain'_append.mpr ⟨hpre, ?_, ?_⟩
  · exact List.chain'_cons'.mpr ⟨fun y hy => Or.inr (hpostHead y hy), hpost⟩
  · intro x hx y hy
    exact Or.inl (hpreLast x hx)

theorem NoAdjFree_decomp (pre post : List (Nat × Bool)) (e : Nat × Bool)
    (h : NoAdjFree (pre ++ e :: post)) :
    List.Chain' (fun a b => a.2 = true ∨ b.2 = true) pre ∧
    List.Chain' (fun a b => a.2 = true ∨ b.2 = true) post := by
  obtain ⟨h1, h2, _⟩ := List.chain'_append.mp h
  exact ⟨h1, (List.chain'_cons'.mp h2).2⟩

theorem chain_last_alloc (pre0 : List (Nat × Bool)) (psz : Nat)
    (h : List.Chain' (fun a b => a.2 = true ∨ b.2 = true) (pre0 ++ [(psz, false)])) :
    ∀ x ∈ pre0.getLast?, x.2 = true := by
  obtain ⟨h1, h2, hseam⟩ := List.chain'_append.mp h
  intro x hx
  have h3 := hseam x hx (psz, false) (by simp)
  simpa using h3

theorem chain_head_alloc (post0 : List (Nat × Bool)) (nsz : Nat)
    (h : List.Chain' (fun a b => a.2 = true ∨ b.2 = true) ((nsz, false) :: post0)) :
    ∀ y ∈ post0.head?, y.2 = true := by
  have h1 := (List.chain'_cons'.mp h).1
  intro y hy
  have h2 := h1 y hy
  simpa using h2

/-- `memcpy` writes confined to an allocated block's payload preserve the
heap invariant: the destination range `[q, q + len)` with `len + 8 ≤ qsz`
touches no header, footer or sentinel word. -/
theorem memcpy_inv (s : AState) (bs : List (Nat × Bool)) (hInv : Inv s bs)
    (q qsz src len : Nat) (hA : AllocAt (s.base + 16) bs q qsz) (hlen : len + 8 ≤ qsz) :
    Inv (memcpy s q src len) bs := by
  obtain ⟨pre, post, hdec, hq⟩ := hA
  have hchain := hInv.chain
  rw [hdec, chainOk_append, chainOk_cons] at hchain
  obtain ⟨hcpre, h16q, h8q, hWq, hHq, hFq, hcpost⟩ := hchain
  have htotI := hInv.tot
  have htbs : btotal bs = btotal pre + (qsz + btotal post) := by
    rw [hdec, btotal_append]
    simp [btotal]
  have hq16 : s.base + 16 ≤ q := by omega
  have hout : ∀ a, a < q ∨ q + len ≤ a → GET (memcpy s q src len) a = GET s a :=
    fun a ha => GET_memcpy_out s q src len a ha
  refine ⟨hInv.base8, hInv.baseGe, hInv.limW, hInv.brkLe, hInv.hlp, ?_, ?_, ?_,
    hInv.tot, ?_, hInv.noAdj, hInv.fOk, hInv.fh0, hInv.fr0, hInv.nfb0⟩
  · show GET (memcpy s q src len) (s.base + 4) = PACK 8 1
    rw [hout _ (by omega)]
    exact hInv.proH
  · show GET (memcpy s q src len) (s.base + 8) = PACK 8 1
    rw [hout _ (by omega)]
    exact hInv.proF
  · show GET (memcpy s q src len) (s.brk - 4) = PACK 0 1
    rw [hout _ (by omega)]
    exact hInv.epi
  · show chainOk (memcpy s q src len) (s.base + 16) bs = true
    rw [chainOk_congr s (memcpy s q src len) _ _ ?_]
    · exact hInv.chain
    · intro a ha
      rw [hdec, metaAddrs_append] at ha
      rcases List.mem_append.mp ha with h | h
      · have hb := metaAddrs_bounds (s.base + 16) pre
          (fun p hp => (chainOk_mem_facts s _ pre hcpre p hp).1) (by omega) a h
        exact hout a (Or.inl (by omega))
      · simp only [metaAddrs, List.mem_cons] at h
        rcases h with h | h | h
        · subst h
          exact hout _ (Or.inl (by omega))
        · subst h
          exact hout _ (Or.inr (by omega))
        · have hb := metaAddrs_bounds (s.base + 16 + btotal pre + qsz) post
            (fun p hp => (chainOk_mem_facts s _ post hcpost p hp).1) (by omega) a h
          exact hout a (Or.inr (by omega))

end MM

namespace MM

/-- `mm_free` under the invariant: freeing an allocated block of the parse
preserves the heap invariant for some parse (the freed block, merged with
free neighbors by the four-case `coalesce`). -/
theorem free_step (s : AState) (bs : List (Nat × Bool)) (hInv : Inv s bs)
    (ptr sz0 : Nat) (hA : AllocAt (s.base + 16) bs ptr sz0) :
    ∃ bs1, Inv (mm_free s ptr) bs1 := by
  obtain ⟨pre, post, hdec, hptr⟩ := hA
  have hchain := hInv.chain
  rw [hdec, chainOk_append, chainOk_cons] at hchain
  obtain ⟨hcpre, h16z, h8z, hWz, hH, hF, hcpost⟩ := hchain
  have htotI := hInv.tot
  have hLW := hInv.limW
  have hBL := hInv.brkLe
  have htbs : btotal bs = btotal pre + (sz0 + btotal post) := by
    rw [hdec, btotal_append]
    simp [btotal]
  have hq16 : s.base + 16 ≤ ptr := by omega
  have hbrkeq : ptr + sz0 + btotal post = s.brk := by omega
  have hChain2 := hInv.noAdj
  rw [hdec] at hChain2
  have hCpre := (NoAdjFree_decomp pre post (sz0, true) hChain2).1
  have hCpost := (NoAdjFree_decomp pre post (sz0, true) hChain2).2
  have hH' : GET s (ptr - 4) = PACK sz0 1 := by
    rw [hptr]
    exact hH
  have hprevD : (∃ pszA, 8 ≤ pszA ∧ pszA % 8 = 0 ∧ pszA < W32 ∧ pszA + 8 ≤ ptr ∧
      GET s (ptr - 8) = PACK pszA 1 ∧ GET s (ptr - pszA - 4) = PACK pszA 1 ∧
      (∀ x ∈ pre.getLast?, x.2 = true)) ∨
      (∃ pre0 psz, pre = pre0 ++ [(psz, false)] ∧ 16 ≤ psz ∧ psz % 8 = 0 ∧
      GET s (ptr - 8) = PACK psz 0 ∧ GET s (ptr - psz - 4) = PACK psz 0 ∧
      (∀ x ∈ pre0.getLast?, x.2 = true)) := by
    rcases List.eq_nil_or_concat pre with hpre | ⟨pre0, pe, hpre⟩
    · have hp0 : ptr = s.base + 16 := by
        rw [hpre] at hptr
        simpa [btotal] using hptr
      refine Or.inl ⟨8, by norm_num, by norm_num, by norm_num [W32], by omega, ?_, ?_, ?_⟩
      · rw [(by omega : ptr - 8 = s.base + 8)]
        exact hInv.proF
      · rw [(by omega : ptr - 8 - 4 = s.base + 4)]
        exact hInv.proH
      · rw [hpre]
        simp
    · rw [List.concat_eq_append] at hpre
      obtain ⟨psz, pal⟩ := pe
      have hcpre2 := hcpre
      rw [hpre, chainOk_append, chainOk_cons] at hcpre2
      obtain ⟨hcpre0, hp16, hp8, hpW, hphdr, hpftr, _⟩ := hcpre2
      have hbt : btotal pre = btotal pre0 + psz := by
        rw [hpre, btotal_append]
        simp [btotal]
      have hCpre2 := hCpre
      rw [hpre] at hCpre2
      cases pal with
      | true =>
        refine Or.inl ⟨psz, by omega, hp8, hpW, by omega, ?_, ?_, ?_⟩
        · rw [(by omega : ptr - 8 = s.base + 16 + btotal pre0 + psz - 8)]
          exact hpftr
        · rw [(by omega : ptr - psz - 4 = s.base + 16 + btotal pre0 - 4)]
          exact hphdr
        · rw [hpre]
          intro x hx
          rw [List.getLast?_concat] at hx
          simp at hx
          rw [← hx]
      | false =>
        refine Or.inr ⟨pre0, psz, hpre, hp16, hp8, ?_, ?_,
          chain_last_alloc pre0 psz hCpre2⟩
        · rw [(by omega : ptr - 8 = s.base + 16 + btotal pre0 + psz - 8)]
          exact hpftr
        · rw [(by omega : ptr - psz - 4 = s.base + 16 + btotal pre0 - 4)]
          exact hphdr
  have hnextD : (∃ nszA, nszA % 8 = 0 ∧ nszA < W32 ∧
      GET s (ptr + sz0 - 4) = PACK nszA 1 ∧ (∀ y ∈ post.head?, y.2 = true)) ∨
      (∃ nsz post0, post = (nsz, false) :: post0 ∧ 16 ≤ nsz ∧ nsz % 8 = 0 ∧
      GET s (ptr + sz0 - 4) = PACK nsz 0 ∧ GET s (ptr + sz0 + nsz - 8) = PACK nsz 0 ∧
      (∀ y ∈ post0.head?, y.2 = true)) := by
    cases post with
    | nil =>
      refine Or.inl ⟨0, by norm_num, by norm_num [W32], ?_, by simp⟩
      have hbrk2 : ptr + sz0 = s.brk := by
        simp only [btotal] at hbrkeq
        omega
      rw [(by omega : ptr + sz0 - 4 = s.brk - 4)]
      exact hInv.epi
    | cons ne post0 =>
      obtain ⟨nsz, nal⟩ := ne
      have hcpost2 := hcpost
      rw [chainOk_cons] at hcpost2
      obtain ⟨hn16, hn8, hnW, hnhdr, hnftr, _⟩ := hcpost2
      cases nal with
      | true =>
        refine Or.inl ⟨nsz, hn8, hnW, ?_, ?_⟩
        · rw [(by omega : ptr + sz0 - 4 = s.base + 16 + btotal pre + sz0 - 4)]
          exact hnhdr
        · intro y hy
          simp at hy
          subst hy
          rfl
      | false =>
        refine Or.inr ⟨nsz, post0, rfl, hn16, hn8, ?_, ?_,
          chain_head_alloc post0 nsz hCpost⟩
        · rw [(by omega : ptr + sz0 - 4 = s.base + 16 + btotal pre + sz0 - 4)]
          exact hnhdr
        · rw [(by omega :
            ptr + sz0 + nsz - 8 = s.base + 16 + btotal pre + sz0 + nsz - 8)]
          exact hnftr
  rw [mm_free_unfold s ptr sz0 hH' h8z hWz]
  set t2 := PUT (PUT s (ptr - 4) (PACK sz0 0)) (ptr + sz0 - 8) (PACK sz0 0) with ht2
  have ht2h : GET t2 (ptr - 4) = PACK sz0 0 := by
    rw [ht2, GET_PUT_ne _ _ _ _ (by omega)]
    exact GET_PUT_pack _ _ sz0 0 h8z (by omega) hWz
  have ht2f : GET t2 (ptr + sz0 - 8) = PACK sz0 0 := by
    rw [ht2]
    exact GET_PUT_pack _ _ sz0 0 h8z (by omega) hWz
  have ht2old : ∀ a, a ≠ ptr - 4 → a ≠ ptr + sz0 - 8 → GET t2 a = GET s a := by
    intro a h1 h2
    rw [ht2, GET_PUT_ne _ _ _ _ h2, GET_PUT_ne _ _ _ _ h1]
  rcases hprevD with ⟨pszA, hpA8, hp8A, hpAW, hpAle, hpf, hph, hpreLast⟩ |
    ⟨pre0, psz, hpre, hp16, hp8, hpf, hph, hpre0Last⟩
  · rcases hnextD with ⟨nszA, hn8A, hnAW, hnh, hpostHead⟩ |
      ⟨nsz, post0, hpost, hn16, hn8, hnh, hnf, hpost0Head⟩
    · -- case 1: both neighbors allocated, block freed in place
      have hpf2 : GET t2 (ptr - 8) = PACK pszA 1 := by
        rw [ht2old _ (by omega) (by omega)]
        exact hpf
      have hph2 : GET t2 (ptr - pszA - 4) = PACK pszA 1 := by
        rw [ht2old _ (by omega) (by omega)]
        exact hph
      have hnh2 : GET t2 (ptr + sz0 - 4) = PACK nszA 1 := by
        rw [ht2old _ (by omega) (by omega)]
        exact hnh
      rw [coalesce_case1 t2 ptr sz0 pszA nszA (by omega) ht2h hpf2 hph2 hnh2
        h8z hp8A hn8A hWz hpAW]
      refine ⟨pre ++ [(sz0, false)] ++ post,
        Inv_surgery s t2 bs pre [(sz0, true)] [(sz0, false)] post ptr hInv
          (by rw [hdec]; simp) hptr (by simp [btotal])
          rfl rfl rfl rfl hInv.fh0 hInv.fr0 hInv.nfb0 ?_ ?_ ?_ ?_⟩
      · intro a ha
        simp only [btotal] at ha
        exact ht2old a (by omega) (by omega)
      · exact (chainOk_cons t2 ptr sz0 false []).mpr ⟨h16z, h8z, hWz, ht2h, ht2f, rfl⟩
      · exact NoAdjFree_mid pre post sz0 hCpre hCpost hpreLast hpostHead
      · rcases hInv.fOk with h | h | h
        · exact Or.inl h
        · exact Or.inr (Or.inl h)
        · refine Or.inr (Or.inr ?_)
          rw [hdec, mem_mblockAddrs_split] at h
          rw [List.append_assoc, List.singleton_append, mem_mblockAddrs_split]
          exact h
    · -- case 2: next block free, merge forward
      subst hpost
      have hCpost0 : List.Chain' (fun a b => a.2 = true ∨ b.2 = true) post0 :=
        (List.chain'_cons'.mp hCpost).2
      have hbtp : btotal ((nsz, false) :: post0) = nsz + btotal post0 := by
        simp [btotal]
      have hsnW : sz0 + nsz < W32 := by omega
      have hpf2 : GET t2 (ptr - 8) = PACK pszA 1 := by
        rw [ht2old _ (by omega) (by omega)]
        exact hpf
      have hph2 : GET t2 (ptr - pszA - 4) = PACK pszA 1 := by
        rw [ht2old _ (by omega) (by omega)]
        exact hph
      have hnh2 : GET t2 (ptr + sz0 - 4) = PACK nsz 0 := by
        rw [ht2old _ (by omega) (by omega)]
        exact hnh
      rw [coalesce_case2 t2 ptr sz0 pszA nsz (by omega) ht2h hpf2 hph2 hnh2
        h8z hp8A hn8 h16z hn16 hsnW hpAW]
      set U := setFinder (PUT (PUT t2 (ptr - 4) (PACK (sz0 + nsz) 0))
        (ptr + sz0 + nsz - 8) (PACK (sz0 + nsz) 0))
        (if t2.finder < ptr + sz0 + nsz ∧ ptr < t2.finder then ptr else t2.finder) with hU
      have hUhdr : GET U (ptr - 4) = PACK (sz0 + nsz) 0 := by
        rw [hU, GET_setFinder, GET_PUT_ne _ _ _ _ (by omega)]
        exact GET_PUT_pack _ _ (sz0 + nsz) 0 (by omega) (by omega) hsnW
      have hUftr : GET U (ptr + sz0 + nsz - 8) = PACK (sz0 + nsz) 0 := by
        rw [hU, GET_setFinder]
        exact GET_PUT_pack _ _ (sz0 + nsz) 0 (by omega) (by omega) hsnW
      have hUold : ∀ a, a < ptr - 4 ∨ ptr + sz0 + nsz - 8 < a → GET U a = GET s a := by
        intro a ha
        rw [hU, GET_setFinder, GET_PUT_ne _ _ _ _ (by omega),
          GET_PUT_ne _ _ _ _ (by omega)]
        exact ht2old a (by omega) (by omega)
      refine ⟨pre ++ [(sz0 + nsz, false)] ++ post0,
        Inv_surgery s U bs pre [(sz0, true), (nsz, false)] [(sz0 + nsz, false)]
          post0 ptr hInv (by rw [hdec]; simp) hptr
          (by simp only [btotal]; omega)
          rfl rfl rfl rfl hInv.fh0 hInv.fr0 hInv.nfb0 ?_ ?_ ?_ ?_⟩
      · intro a ha
        simp only [btotal] at ha
        exact hUold a (by omega)
      · refine (chainOk_cons U ptr (sz0 + nsz) false []).mpr
          ⟨by omega, by omega, hsnW, hUhdr, ?_, rfl⟩
        rw [(by omega : ptr + (sz0 + nsz) - 8 = ptr + sz0 + nsz - 8)]
        exact hUftr
      · exact NoAdjFree_mid pre post0 (sz0 + nsz) hCpre hCpost0 hpreLast hpost0Head
      · have hUf : U.finder =
            if s.finder < ptr + sz0 + nsz ∧ ptr < s.finder then ptr else s.finder := rfl
        rw [hUf]
        by_cases hc : s.finder < ptr + sz0 + nsz ∧ ptr < s.finder
        · rw [if_pos hc]
          refine Or.inr (Or.inr ?_)
          rw [List.append_assoc, List.singleton_append, mem_mblockAddrs_split]
          exact Or.inr (Or.inl hptr)
        · rw [if_neg hc]
          rcases hInv.fOk with h | h | h
          · exact Or.inl h
          · exact Or.inr (Or.inl h)
          · refine Or.inr (Or.inr ?_)
            rw [hdec, mem_mblockAddrs_split] at h
            rw [List.append_assoc, List.singleton_append, mem_mblockAddrs_split]
            rcases h with h | h | h
            · exact Or.inl h
            · exact Or.inr (Or.inl h)
            · rw [mem_mblockAddrs_cons] at h
              rcases h with h | h
              · exfalso
                apply hc
                omega
              · refine Or.inr (Or.inr ?_)
                rw [(by omega : s.base + 16 + btotal pre + (sz0 + nsz) =
                  s.base + 16 + btotal pre + sz0 + nsz)]
                exact h
  · rcases hnextD with ⟨nszA, hn8A, hnAW, hnh, hpostHead⟩ |
      ⟨nsz, post0, hpost, hn16, hn8, hnh, hnf, hpost0Head⟩
    · -- case 3: previous block free, merge backward
      subst hpre
      have hbt : btotal (pre0 ++ [(psz, false)]) = btotal pre0 + psz := by
        rw [btotal_append]
        simp [btotal]
      have hCpre0 : List.Chain' (fun a b => a.2 = true ∨ b.2 = true) pre0 :=
        (List.chain'_append.mp hCpre).1
      have hspW : sz0 + psz < W32 := by omega
      have hpf2 : GET t2 (ptr - 8) = PACK psz 0 := by
        rw [ht2old _ (by omega) (by omega)]
        exact hpf
      have hph2 : GET t2 (ptr - psz - 4) = PACK psz 0 := by
        rw [ht2old _ (by omega) (by omega)]
        exact hph
      have hnh2 : GET t2 (ptr + sz0 - 4) = PACK nszA 1 := by
        rw [ht2old _ (by omega) (by omega)]
        exact hnh
      rw [coalesce_case3 t2 ptr sz0 psz nszA (by omega) ht2h hpf2 hph2 hnh2
        h8z hp8 hn8A h16z hp16 hspW hnAW]
      set U := setFinder (PUT (PUT t2 (ptr + sz0 - 8) (PACK (sz0 + psz) 0))
        (ptr - psz - 4) (PACK (sz0 + psz) 0))
        (if t2.finder < ptr + sz0 ∧ ptr - psz < t2.finder then ptr - psz
          else t2.finder) with hU
      have hUhdr : GET U (ptr - psz - 4) = PACK (sz0 + psz) 0 := by
        rw [hU, GET_setFinder]
        exact GET_PUT_pack _ _ (sz0 + psz) 0 (by omega) (by omega) hspW
      have hUftr : GET U (ptr + sz0 - 8) = PACK (sz0 + psz) 0 := by
        rw [hU, GET_setFinder, GET_PUT_ne _ _ _ _ (by omega)]
        exact GET_PUT_pack _ _ (sz0 + psz) 0 (by omega) (by omega) hspW
      have hUold : ∀ a, a < ptr - psz - 4 ∨ ptr + sz0 - 8 < a → GET U a = GET s a := by
        intro a ha
        rw [hU, GET_setFinder, GET_PUT_ne _ _ _ _ (by omega),
          GET_PUT_ne _ _ _ _ (by omega)]
        exact ht2old a (by omega) (by omega)
      refine ⟨pre0 ++ [(sz0 + psz, false)] ++ post,
        Inv_surgery s U bs pre0 [(psz, false), (sz0, true)] [(sz0 + psz, false)]
          post (ptr - psz) hInv (by rw [hdec]; simp) (by omega)
          (by simp only [btotal]; omega)
          rfl rfl rfl rfl hInv.fh0 hInv.fr0 hInv.nfb0 ?_ ?_ ?_ ?_⟩
      · intro a ha
        simp only [btotal] at ha
        exact hUold a (by omega)
      · refine (chainOk_cons U (ptr - psz) (sz0 + psz) false []).mpr
          ⟨by omega, by omega, hspW, hUhdr, ?_, rfl⟩
        rw [(by omega : ptr - psz + (sz0 + psz) - 8 = ptr + sz0 - 8)]
        exact hUftr
      · exact NoAdjFree_mid pre0 post (sz0 + psz) hCpre0 hCpost hpre0Last hpostHead
      · have hUf : U.finder =
            if s.finder < ptr + sz0 ∧ ptr - psz < s.finder then ptr - psz
            else s.finder := rfl
        rw [hUf]
        by_cases hc : s.finder < ptr + sz0 ∧ ptr - psz < s.finder
        · rw [if_pos hc]
          refine Or.inr (Or.inr ?_)
          rw [List.append_assoc, List.singleton_append, mem_mblockAddrs_split]
          exact Or.inr (Or.inl (by omega))
        · rw [if_neg hc]
          rcases hInv.fOk with h | h | h
          · exact Or.inl h
          · exact Or.inr (Or.inl h)
          · refine Or.inr (Or.inr ?_)
            rw [hdec, List.append_assoc, List.singleton_append,
              mem_mblockAddrs_split] at h
            rw [List.append_assoc, List.singleton_append, mem_mblockAddrs_split]
            rcases h with h | h | h
            · exact Or.inl h
            · exact Or.inr (Or.inl h)
            · rw [mem_mblockAddrs_cons] at h
              rcases h with h | h
              · exfalso
                apply hc
                omega
              · refine Or.inr (Or.inr ?_)
                rw [(by omega : s.base + 16 + btotal pre0 + (sz0 + psz) =
                  s.base + 16 + btotal pre0 + psz + sz0)]
                exact h
    · -- case 4: both neighbors free, merge all three
      subst hpre
      subst hpost
      have hbt : btotal (pre0 ++ [(psz, false)]) = btotal pre0 + psz := by
        rw [btotal_append]
        simp [btotal]
      have hbtp : btotal ((nsz, false) :: post0) = nsz + btotal post0 := by
        simp [btotal]
      have hCpre0 : List.Chain' (fun a b => a.2 = true ∨ b.2 = true) pre0 :=
        (List.chain'_append.mp hCpre).1
      have hCpost0 : List.Chain' (fun a b => a.2 = true ∨ b.2 = true) post0 :=
        (List.chain'_cons'.mp hCpost).2
      have hW3 : sz0 + psz + nsz < W32 := by omega
      have hpf2 : GET t2 (ptr - 8) = PACK psz 0 := by
        rw [ht2old _ (by omega) (by omega)]
        exact hpf
      have hph2 : GET t2 (ptr - psz - 4) = PACK psz 0 := by
        rw [ht2old _ (by omega) (by omega)]
        exact hph
      have hnh2 : GET t2 (ptr + sz0 - 4) = PACK nsz 0 := by
        rw [ht2old _ (by omega) (by omega)]
        exact hnh
      have hnf2 : GET t2 (ptr + sz0 + nsz - 8) = PACK nsz 0 := by
        rw [ht2old _ (by omega) (by omega)]
        exact hnf
      rw [coalesce_case4 t2 ptr sz0 psz nsz (by omega) ht2h hpf2 hph2 hnh2 hnf2
        h8z hp8 hn8 h16z hp16 hn16 hW3]
      set U := setFinder (PUT (PUT t2 (ptr - psz - 4) (PACK (sz0 + psz + nsz) 0))
        (ptr + sz0 + nsz - 8) (PACK (sz0 + psz + nsz) 0))
        (if t2.finder < ptr + sz0 + nsz ∧ ptr - psz < t2.finder then ptr - psz
          else t2.finder) with hU
      have hUhdr : GET U (ptr - psz - 4) = PACK (sz0 + psz + nsz) 0 := by
        rw [hU, GET_setFinder, GET_PUT_ne _ _ _ _ (by omega)]
        exact GET_PUT_pack _ _ (sz0 + psz + nsz) 0 (by omega) (by omega) hW3
      have hUftr : GET U (ptr + sz0 + nsz - 8) = PACK (sz0 + psz + nsz) 0 := by
        rw [hU, GET_setFinder]
        exact GET_PUT_pack _ _ (sz0 + psz + nsz) 0 (by omega) (by omega) hW3
      have hUold : ∀ a, a < ptr - psz - 4 ∨ ptr + sz0 + nsz - 8 < a →
          GET U a = GET s a := by
        intro a ha
        rw [hU, GET_setFinder, GET_PUT_ne _ _ _ _ (by omega),
          GET_PUT_ne _ _ _ _ (by omega)]
        exact ht2old a (by omega) (by omega)
      refine ⟨pre0 ++ [(sz0 + psz + nsz, false)] ++ post0,
        Inv_surgery s U bs pre0 [(psz, false), (sz0, true), (nsz, false)]
          [(sz0 + psz + nsz, false)] post0 (ptr - psz) hInv
          (by rw [hdec]; simp) (by omega) (by simp only [btotal]; omega)
          rfl rfl rfl rfl hInv.fh0 hInv.fr0 hInv.nfb0 ?_ ?_ ?_ ?_⟩
      · intro a ha
        simp only [btotal] at ha
        exact hUold a (by omega)
      · refine (chainOk_cons U (ptr - psz) (sz0 + psz + nsz) false []).mpr
          ⟨by omega, by omega, hW3, hUhdr, ?_, rfl⟩
        rw [(by omega : ptr - psz + (sz0 + psz + nsz) - 8 = ptr + sz0 + nsz - 8)]
        exact hUftr
      · exact NoAdjFree_mid pre0 post0 (sz0 + psz + nsz) hCpre0 hCpost0
          hpre0Last hpost0Head
      · have hUf : U.finder =
            if s.finder < ptr + sz0 + nsz ∧ ptr - psz < s.finder then ptr - psz
            else s.finder := rfl
        rw [hUf]
        by_cases hc : s.finder < ptr + sz0 + nsz ∧ ptr - psz < s.finder
        · rw [if_pos hc]
          refine Or.inr (Or.inr ?_)
          rw [List.append_assoc, List.singleton_append, mem_mblockAddrs_split]
          exact Or.inr (Or.inl (by omega))
        · rw [if_neg hc]
          rcases hInv.fOk with h | h | h
          · exact Or.inl h
          · exact Or.inr (Or.inl h)
          · refine Or.inr (Or.inr ?_)
            rw [hdec, List.append_assoc, List.singleton_append,
              mem_mblockAddrs_split] at h
            rw [List.append_assoc, List.singleton_append, mem_mblockAddrs_split]
            rcases h with h | h | h
            · exact Or.inl h
            · exact Or.inr (Or.inl h)
            · rw [mem_mblockAddrs_cons] at h
              rcases h with h | h
              · exfalso
                apply hc
                omega
              · rw [mem_mblockAddrs_cons] at h
                rcases h with h | h
                · exfalso
                  apply hc
                  omega
                · refine Or.inr (Or.inr ?_)
                  rw [(by omega : s.base + 16 + btotal pre0 + (sz0 + psz + nsz) =
                    s.base + 16 + btotal pre0 + psz + sz0 + nsz)]
                  exact h

end MM

namespace MM

theorem reallocCopy_le (s : AState) (old size : Nat) : reallocCopy s old size ≤ size := by
  simp only [reallocCopy]
  split <;> omega

/-- `mm_realloc` under the invariant: with a live old block and an
overflow-free request the call terminates and the invariant is
re-established.  The junk copy length read at `old - 8` (mm.c line 357) is
clamped by `size`, so the copy stays inside the new block's payload and
cannot corrupt metadata — even though it can read beyond the old payload. -/
theorem realloc_step (s : AState) (bs : List (Nat × Bool)) (hInv : Inv s bs)
    (ptr n : Nat) (hn : n + 16 ≤ W64) (sz0 : Nat)
    (hA : AllocAt (s.base + 16) bs ptr sz0) :
    ∃ r s3, mm_realloc s ptr n = some (r, s3) ∧ ∃ bs3, Inv s3 bs3 := by
  obtain ⟨r1, s1, hmal, hbase1, bs1, hInv1, hpres, hsome⟩ := malloc_step s bs hInv n hn
  have hA1 : AllocAt (s1.base + 16) bs1 ptr sz0 := by
    rw [hbase1]
    exact hpres ptr sz0 hA
  simp only [mm_realloc]
  rw [hmal]
  cases r1 with
  | none =>
    exact ⟨none, s1, rfl, bs1, hInv1⟩
  | some newp =>
    obtain ⟨halign, hge, szb, hbA, hszb⟩ := hsome newp rfl
    have hbA1 : AllocAt (s1.base + 16) bs1 newp szb := by
      rw [hbase1]
      exact hbA
    dsimp only
    by_cases h0 : n = 0
    · rw [if_pos h0]
      obtain ⟨bs3, hInv3⟩ := free_step s1 bs1 hInv1 ptr sz0 hA1
      exact ⟨none, mm_free s1 ptr, rfl, bs3, hInv3⟩
    · rw [if_neg h0]
      have hcle : reallocCopy s1 ptr n ≤ n := reallocCopy_le s1 ptr n
      have hInv2 : Inv (memcpy s1 newp ptr (reallocCopy s1 ptr n)) bs1 :=
        memcpy_inv s1 bs1 hInv1 newp szb ptr (reallocCopy s1 ptr n) hbA1 (by omega)
      obtain ⟨bs3, hInv3⟩ :=
        free_step (memcpy s1 newp ptr (reallocCopy s1 ptr n)) bs1 hInv2 ptr sz0 hA1
      exact ⟨some newp, _, rfl, bs3, hInv3⟩

theorem mm_init_none (m0 : Nat → Nat) (base limit : Nat) (h : limit < 4112) :
    mm_init (initState m0 base limit) = none := by
  by_cases h16 : base + 16 ≤ base + limit
  · simp only [mm_init]
    rw [mem_sbrk_eq_some _ _ (by simp [WSIZE]; omega)]
    dsimp only
    rw [extend_none _ _ ?_]
    show ¬ base + 16 + sbrkRound (CHUNKSIZE / WSIZE) ≤ base + limit
    norm_num [sbrkRound, CHUNKSIZE, WSIZE]
    omega
  · simp only [mm_init]
    rw [mem_sbrk_eq_none _ _ (by simp [WSIZE]; omega)]

theorem mm_init_some_inv (m0 : Nat → Nat) (base limit : Nat) (s' : AState)
    (hb8 : base % 8 = 0) (hbGe : 8 ≤ base) (hlW : base + limit < W32)
    (hrun : mm_init (initState m0 base limit) = some s') : ∃ bs, Inv s' bs := by
  by_cases hc2 : base + 4112 ≤ base + limit
  · rw [mm_init_run m0 base limit hbGe hc2] at hrun
    injection hrun with h
    exact ⟨[(4096, false)], h ▸ mm_init_inv m0 base limit hb8 hbGe hlW hc2⟩
  · rw [mm_init_none m0 base limit (by omega)] at hrun
    cases hrun

/-- The public states of the allocator: a successful `mm_init` on a fresh
8-aligned region, followed by any sequence of `mm_malloc`, `mm_free` and
`mm_realloc` calls with overflow-free request sizes and (for free and
realloc) live allocated pointers. -/
inductive Reachable : AState → Prop where
  | init (m0 : Nat → Nat) (base limit : Nat) (s' : AState)
      (hb8 : base % 8 = 0) (hbGe : 8 ≤ base) (hlW : base + limit < W32)
      (hrun : mm_init (initState m0 base limit) = some s') : Reachable s'
  | step_malloc (s : AState) (n : Nat) (r : Option Nat) (s' : AState)
      (hs : Reachable s) (hn : n + 16 ≤ W64)
      (hrun : mm_malloc s n = some (r, s')) : Reachable s'
  | step_free (s : AState) (ptr : Nat) (hs : Reachable s)
      (hlive : ∀ bs, Inv s bs → ∃ sz, AllocAt (s.base + 16) bs ptr sz) :
      Reachable (mm_free s ptr)
  | step_realloc (s : AState) (ptr n : Nat) (r : Option Nat) (s' : AState)
      (hs : Reachable s) (hn : n + 16 ≤ W64)
      (hlive : ∀ bs, Inv s bs → ∃ sz, AllocAt (s.base + 16) bs ptr sz)
      (hrun : mm_realloc s ptr n = some (r, s')) : Reachable s'

/-- Every reachable allocator state satisfies the heap invariant for some
block parse. -/
theorem reachable_inv (s : AState) (h : Reachable s) : ∃ bs, Inv s bs := by
  induction h with
  | init m0 base limit s' hb8 hbGe hlW hrun =>
    exact mm_init_some_inv m0 base limit s' hb8 hbGe hlW hrun
  | step_malloc s n r s' hs hn hrun ih =>
    obtain ⟨bs, hInv⟩ := ih
    obtain ⟨r2, s2, hmal, hb2, bs2, hInv2, h3, h4⟩ := malloc_step s bs hInv n hn
    have heq := hmal.symm.trans hrun
    injection heq with heq
    injection heq with h5 h6
    exact ⟨bs2, h6 ▸ hInv2⟩
  | step_free s ptr hs hlive ih =>
    obtain ⟨bs, hInv⟩ := ih
    obtain ⟨sz, hA⟩ := hlive bs hInv
    exact free_step s bs hInv ptr sz hA
  | step_realloc s ptr n r s' hs hn hlive hrun ih =>
    obtain ⟨bs, hInv⟩ := ih
    obtain ⟨sz, hA⟩ := hlive bs hInv
    obtain ⟨r2, s2, hre, bs2, hInv2⟩ := realloc_step s bs hInv ptr n hn sz hA
    have heq := hre.symm.trans hrun
    injection heq with heq
    injection heq with h5 h6
    exact ⟨bs2, h6 ▸ hInv2⟩

end MM

namespace MM

/-! ### Concrete states used by the claim witnesses and counterexamples -/

/-- All-zero initial region content. -/
def m0z : Nat → Nat := fun _ => 0

/-- A fresh 20 MiB region at the 8-aligned address 8. -/
def sInit0 : AState := initState m0z 8 20971520

/-- The heap right after a successful `mm_init` on that region. -/
def heap0 : AState := initHeapState m0z 8 20971520

theorem heap0_run : mm_init sInit0 = some heap0 :=
  mm_init_run m0z 8 20971520 (by norm_num) (by norm_num)

theorem heap0_reach : Reachable heap0 :=
  Reachable.init m0z 8 20971520 heap0 (by norm_num) (by norm_num)
    (by norm_num [W32]) heap0_run

/-- The state component of a (successful) `mm_malloc` call. -/
def mallState (s : AState) (n : Nat) : AState := ((mm_malloc s n).getD (none, s)).2

/-- Heap after `mm_malloc 100` on the fresh heap: block of size 112 at 24. -/
def heapM100 : AState := mallState heap0 100

/-- Heap after one `mm_malloc 8`: block of size 16 at 24. -/
def heapA8 : AState := mallState heap0 8

/-- Heap after two `mm_malloc 8` calls: blocks of size 16 at 24 and 40. -/
def heapB8 : AState := mallState heapA8 8

/-- Heap after the overflowing request `mm_malloc (2^64 - 8)`. -/
def heapBad : AState := mallState heap0 (W64 - 8)

/-- Region content with a nonzero 64-bit word at address 0 (below the
heap, which starts at 8): the bytes a null-pointer `size_t` load reads. -/
def m0n : Nat → Nat := fun a => if a = 0 then 16 else 0

/-- The heap after a successful `mm_init` over `m0n`: identical to `heap0`
at every address the allocator ever wrote. -/
def heapN : AState := initHeapState m0n 8 20971520

/-- The state component of a (successful) `mm_realloc` call. -/
def reallState (s : AState) (p n : Nat) : AState :=
  ((mm_realloc s p n).getD (none, s)).2

/-- Heap after `mm_realloc 24 16` on `heapB8`: new block at 56. -/
def heapC : AState := reallState heapB8 24 16

theorem mm_check_firstHead_zero (s : AState) (h : s.firstHead = 0) :
    mm_check s = none := by
  simp [mm_check, h, get_alloc]

/-- C1: the claim says `mm_check` passes after every valid operation
sequence; in fact its very first access dereferences the global
`firstHead` (mm.c line 381), which no allocator operation ever sets, so
the `assert(h)` inside `get_alloc` (line 115) fires on every reachable
state and the checker always aborts — it never passes. -/
theorem c1_check_always_aborts (s : AState) (h : Reachable s) : mm_check s = none := by
  obtain ⟨bs, hInv⟩ := reachable_inv s h
  exact mm_check_firstHead_zero s hInv.fh0

theorem c1_witness : Reachable heap0 ∧ mm_check heap0 = none :=
  ⟨heap0_reach, c1_check_always_aborts heap0 heap0_reach⟩

/-- C10: no allocator operation ever writes the checker globals: in every
reachable state `firstHead` and `freeHead` are still null and
`num_freeblocks` is still 0 (the counter macros at mm.c lines 55-63 expand
to nothing without DEBUG). -/
theorem c10_checker_globals_zero (s : AState) (h : Reachable s) :
    s.firstHead = 0 ∧ s.freeHead = 0 ∧ s.num_freeblocks = 0 := by
  obtain ⟨bs, hInv⟩ := reachable_inv s h
  exact ⟨hInv.fh0, hInv.fr0, hInv.nfb0⟩

theorem c10_witness :
    Reachable heap0 ∧ (heap0.firstHead = 0 ∧ heap0.freeHead = 0 ∧
      heap0.num_freeblocks = 0) :=
  ⟨heap0_reach, c10_checker_globals_zero heap0 heap0_reach⟩

end MM

namespace MM

/-- C2 counterexample: for the positive request `2^64 - 8` the adjusted
size computation `DSIZE * ((size + DSIZE + (DSIZE-1)) / DSIZE)` (mm.c line
197) wraps around `size_t` to 0, and `mm_malloc` returns pointer 24 whose
block holds only 4096 bytes — far less than the requested `2^64 - 8` —
and is not even marked allocated.  The claim as stated (for every `n > 0`)
is false. -/
theorem c2_counterexample :
    0 < W64 - 8 ∧
    mm_malloc heap0 (W64 - 8) = some (some 24, heapBad) ∧
    GET_SIZE heapBad (HDRP 24) + 8 < W64 - 8 ∧
    GET_ALLOC heapBad (HDRP 24) = 0 := by
  refine ⟨by norm_num [W64], by rfl, ?_, by rfl⟩
  rw [(by rfl : GET_SIZE heapBad (HDRP 24) = 4096)]
  norm_num [W64]

/-- C2 (amended): for every request `n` with `0 < n` and `n + 16 ≤ 2^64`
(so the adjusted-size arithmetic cannot wrap), a pointer returned by
`mm_malloc` on a reachable heap is 8-aligned and heads a block whose size
covers `n` payload bytes plus the 8 bytes of header and footer. -/
theorem c2_aligned_and_sized (s : AState) (hreach : Reachable s) (n : Nat)
    (h0 : 0 < n) (hn : n + 16 ≤ W64) (bp : Nat) (s' : AState)
    (hrun : mm_malloc s n = some (some bp, s')) :
    bp % 8 = 0 ∧ n + 8 ≤ GET_SIZE s' (bp - 4) := by
  obtain ⟨bs, hInv⟩ := reachable_inv s hreach
  obtain ⟨r2, s2, hmal, hb2, bs2, hInv2, hpres, hsome⟩ := malloc_step s bs hInv n hn
  have heq := hmal.symm.trans hrun
  injection heq with heq
  injection heq with h1 h2
  subst h2
  obtain ⟨ha, hb, _⟩ := hsome bp h1
  exact ⟨ha, hb⟩

theorem c2_witness :
    Reachable heap0 ∧ 0 < 100 ∧ 100 + 16 ≤ W64 ∧
    mm_malloc heap0 100 = some (some 24, heapM100) ∧
    (24 % 8 = 0 ∧ 100 + 8 ≤ GET_SIZE heapM100 (24 - 4)) :=
  ⟨heap0_reach, by norm_num, by norm_num [W64], by rfl,
    c2_aligned_and_sized heap0 heap0_reach 100 (by norm_num) (by norm_num [W64])
      24 heapM100 (by rfl)⟩

end MM

namespace MM

/-- C3: `mm_malloc` returns NULL exactly when the request is 0 or when no
free block fits and the attempted `mem_sbrk` extension fails (mm.c lines
188-189 and 203-205); on a size-0 request it returns immediately with the
heap state untouched.  The `mem_sbrk` side is settled against the
spec-modelled memory system. -/
theorem c3_null_iff (s : AState) (hreach : Reachable s) (n : Nat)
    (hn : n + 16 ≤ W64) :
    ∃ r s', mm_malloc s n = some (r, s') ∧
      (n = 0 → r = none ∧ s' = s) ∧
      (r = none ↔ n = 0 ∨ ∃ f, find_fit s (asizeOf n) = some (none, setFinder s f) ∧
        mem_sbrk (setFinder s f) (extendAmt n) = none) := by
  obtain ⟨bs, hInv⟩ := reachable_inv s hreach
  by_cases h0 : n = 0
  · subst h0
    refine ⟨none, s, by simp [mm_malloc], fun _ => ⟨rfl, rfl⟩, ?_⟩
    simp
  · have h0' : 0 < n := Nat.pos_of_ne_zero h0
    obtain ⟨r0, f1, hff, hInv1, hfit⟩ := find_fit_spec s bs hInv (asizeOf n)
    cases r0 with
    | some bp =>
      refine ⟨some bp, place (setFinder s f1) bp (asizeOf n), ?_,
        fun h => absurd h h0, ?_⟩
      · simp only [mm_malloc]
        rw [if_neg h0, hff]
      · constructor
        · intro h
          cases h
        · rintro (h | ⟨f, hf, hsb⟩)
          · exact absurd h h0
          · rw [hff] at hf
            injection hf with hf
            injection hf with hf1 hf2
    | none =>
      have hE : extendAmt n = max (asizeOf n) CHUNKSIZE := extendAmt_eq n
      have h16' : 16 ≤ sbrkRound (max (asizeOf n) CHUNKSIZE / WSIZE) := by
        show 16 ≤ extendAmt n
        rw [hE]
        exact le_trans (by norm_num [CHUNKSIZE]) (le_max_right _ _)
      by_cases hok : (setFinder s f1).brk +
          sbrkRound (max (asizeOf n) CHUNKSIZE / WSIZE) ≤
          (setFinder s f1).base + (setFinder s f1).limit
      · obtain ⟨bp1, s2, pre1, sz1, hext, hbase2, hInv2, hbp1, hK, hpres1⟩ :=
          extend_inv (setFinder s f1) bs hInv1 _ h16' hok
        refine ⟨some bp1, place s2 bp1 (asizeOf n), ?_, fun h => absurd h h0, ?_⟩
        · simp only [mm_malloc]
          rw [if_neg h0, hff]
          dsimp only
          rw [hext]
        · constructor
          · intro h
            cases h
          · rintro (h | ⟨f, hf, hsb⟩)
            · exact absurd h h0
            · rw [hff] at hf
              injection hf with hf
              injection hf with hf1 hf2
              rw [← hf2] at hsb
              have hsome : mem_sbrk (setFinder s f1) (extendAmt n) =
                  some ((setFinder s f1).brk, addBrk (setFinder s f1) (extendAmt n)) :=
                mem_sbrk_eq_some (setFinder s f1) (extendAmt n) hok
              rw [hsome] at hsb
              cases hsb
      · refine ⟨none, setFinder s f1, ?_, fun h => absurd h h0, ?_⟩
        · simp only [mm_malloc]
          rw [if_neg h0, hff]
          dsimp only
          rw [extend_none _ _ hok]
        · exact ⟨fun _ => Or.inr ⟨f1, hff, mem_sbrk_eq_none _ _ hok⟩, fun _ => rfl⟩

theorem c3_witness :
    Reachable heap0 ∧ 0 + 16 ≤ W64 ∧
    (∃ r s', mm_malloc heap0 0 = some (r, s') ∧
      (0 = 0 → r = none ∧ s' = heap0) ∧
      (r = none ↔ 0 = 0 ∨ ∃ f, find_fit heap0 (asizeOf 0) =
          some (none, setFinder heap0 f) ∧
        mem_sbrk (setFinder heap0 f) (extendAmt 0) = none)) :=
  ⟨heap0_reach, by norm_num [W64],
    c3_null_iff heap0 heap0_reach 0 (by norm_num [W64])⟩

/-- C4: the claim says `resize(ptr, 0)` behaves like `release(ptr)`; in
fact `mm_realloc` calls `mm_malloc(0)` first, which returns NULL, and the
`newp == NULL` early return (mm.c lines 348-350) fires before the
`size == 0` branch (lines 352-355) is ever reached.  `mm_realloc ptr 0`
returns NULL with the heap completely unchanged — the block at 24 stays
allocated — whereas `mm_free` on the same state does clear its allocated
bit. -/
theorem c4_resize_zero_frees_nothing :
    mm_realloc heapM100 24 0 = some (none, heapM100) ∧
    GET_ALLOC heapM100 (HDRP 24) = 1 ∧
    GET_ALLOC (mm_free heapM100 24) (HDRP 24) = 0 :=
  ⟨by rfl, by rfl, by rfl⟩

/-- C5: the claim says `resize(NULL, n)` behaves exactly like
`allocate(n)` without reading through the null pointer; in fact
`mm_realloc` has no NULL check and immediately reads the 8 bytes at
`old - SIZE_T_SIZE` (mm.c line 357) and frees the null pointer.  Two
regions that differ only in the word at address 0 — below the heap, never
read or written by the allocator — give identical `mm_malloc 100` results
(word 36 of the heap is 0 in both) but different `mm_realloc NULL 100`
results (word 36 becomes 9 on one of them): the resize result depends on
the bytes behind the null pointer. -/
theorem c5_resize_null_reads_through_null :
    (mm_malloc heap0 100).map (fun r => (r.1, GET r.2 36)) = some (some 24, 0) ∧
    (mm_malloc heapN 100).map (fun r => (r.1, GET r.2 36)) = some (some 24, 0) ∧
    (mm_realloc heap0 0 100).map (fun r => (r.1, GET r.2 36)) = some (some 24, 0) ∧
    (mm_realloc heapN 0 100).map (fun r => (r.1, GET r.2 36)) = some (some 24, 9) :=
  ⟨by rfl, by rfl, by rfl, by rfl⟩

/-- C6: the claim says the copy reads only bytes within the old block's
payload; in fact the copy length is the 64-bit word at `old - 8` — the
previous block's footer and the old block's header, not a payload size —
clamped only by the new size (mm.c lines 357-360).  Here the old block at
24 has size 16 (8 payload bytes), yet `copy = 16`, and after
`mm_realloc 24 16` the new payload word at 64 (offset 8) holds the OLD
block's footer word `PACK 16 1` read from address 32, outside the old
payload `[24, 32)`. -/
theorem c6_resize_copies_neighbor_metadata :
    mm_malloc heap0 8 = some (some 24, heapA8) ∧
    mm_malloc heapA8 8 = some (some 40, heapB8) ∧
    GET_SIZE heapB8 (HDRP 24) = 16 ∧
    reallocCopy heapB8 24 16 = 16 ∧
    mm_realloc heapB8 24 16 = some (some 56, heapC) ∧
    FTRP heapB8 24 = 32 ∧
    GET heapB8 32 = PACK 16 1 ∧
    GET heapC 64 = PACK 16 1 :=
  ⟨by rfl, by rfl, by rfl, by rfl, by rfl, by rfl, by rfl, by rfl⟩

/-- C9 counterexample: after the public operation sequence `init();
allocate(2^64 - 8)` — reachable by valid calls under the claim as stated —
the prologue block's header (at base + 4) records size 8 while its footer
word (at base + 8) was overwritten by `place` with a size-0 footer: header
and footer of a block disagree. -/
theorem c9_counterexample :
    mm_malloc heap0 (W64 - 8) = some (some 24, heapBad) ∧
    GET heapBad (heapBad.base + 4) = PACK 8 1 ∧
    GET_SIZE heapBad (heapBad.base + 4) = 8 ∧
    GET_SIZE heapBad (heapBad.base + 8) = 0 :=
  ⟨by rfl, by rfl, by rfl, by rfl⟩

/-- C9 (amended): after every public operation with overflow-free request
sizes (`n + 16 ≤ 2^64`) and live pointers, the whole heap between the
prologue and the epilogue parses as a block sequence — the blocks' total
size spans exactly from `base + 16` to `brk` — in which every block's
header word equals its footer word (size and alloc bit), no two adjacent
blocks are both free, and the prologue and epilogue sentinels are
intact. -/
theorem c9_headers_footers_agree (s : AState) (h : Reachable s) :
    ∃ bs, chainOk s (s.base + 16) bs = true ∧ NoAdjFree bs ∧
      s.base + 16 + btotal bs = s.brk ∧
      GET s (s.base + 4) = PACK 8 1 ∧ GET s (s.base + 8) = PACK 8 1 ∧
      GET s (s.brk - 4) = PACK 0 1 := by
  obtain ⟨bs, hInv⟩ := reachable_inv s h
  exact ⟨bs, hInv.chain, hInv.noAdj, hInv.tot, hInv.proH, hInv.proF, hInv.epi⟩

theorem c9_witness :
    Reachable heap0 ∧
    (∃ bs, chainOk heap0 (heap0.base + 16) bs = true ∧ NoAdjFree bs ∧
      heap0.base + 16 + btotal bs = heap0.brk ∧
      GET heap0 (heap0.base + 4) = PACK 8 1 ∧ GET heap0 (heap0.base + 8) = PACK 8 1 ∧
      GET heap0 (heap0.brk - 4) = PACK 0 1) :=
  ⟨heap0_reach, c9_headers_footers_agree heap0 heap0_reach⟩

end MM
